import Mathlib

/-!
Formal model of the Xiangqi rule engine implemented in src/XiangqiGame.py,
together with theorems settling the specification claims.

Modelling conventions:
- Python strings (positions such as "e5", piece labels such as "GR1", color
  and game-state strings) are modelled as lists of characters (`Str`).
- A Python function that can raise an exception returns an `Option`, with
  `none` marking the raise, unless the raise is unreachable in every context
  the engine uses (those spots use a `getD` default and carry a comment).
- Python dicts are modelled as association lists in insertion order: lookup
  finds the first matching key, deletion removes it, insertion appends at the
  end.  This mirrors CPython's ordered-dict semantics, which matter for the
  undo path (a restored captured piece re-enters at the end of the dict).
- The game's single recursive knot (make_move → _update_game_state →
  _is_game_over → make_move with test=True, where the test path never calls
  _update_game_state again) is unfolded into `make_move_base` /
  `make_move_test` / `make_move`, so all recursion is structural.
-/

/-- Python strings are modelled as lists of characters. -/
abbrev Str := List Char

/-- Python str.lower for the ASCII color names used by the engine. -/
def lowerStr (s : Str) : Str := s.map Char.toLower

/-- Python list.index returning an Option: index of the first occurrence of
`a`, or `none` where the source would raise ValueError. -/
def listIndex? {α : Type} [DecidableEq α] (a : α) : List α → Option Nat
  | [] => none
  | b :: l => if b = a then some 0 else (listIndex? a l).map (· + 1)

/-- Python int() on a string, as far as this engine can feed it: optional
surrounding spaces, an optional sign, then at least one digit.  `none` models
the ValueError raise.  (Digit-group underscores are not modelled; the engine
never produces them.) -/
def parseInt (s : Str) : Option Int :=
  let core : Str → Option Int := fun d =>
    if d ≠ [] ∧ d.all Char.isDigit then
      some (d.foldl (fun a c => a * 10 + ((c.toNat : Int) - 48)) 0)
    else none
  match (s.dropWhile (· = ' ')).reverse.dropWhile (· = ' ') |>.reverse with
  | '-' :: d => (core d).map (fun n => -n)
  | '+' :: d => core d
  | d => core d

/-! Board geometry (class Board).  The board constants of Board.__init__. -/

/-- Board._red. -/
def redC : Char := 'R'

/-- Board._black. -/
def blackC : Char := 'B'

/-- Board._empty, the placeholder for an empty square. -/
def emptyL : Str := "---".toList

/-- Board._columns. -/
def columnsL : List Char := "abcdefghi".toList

/-- Board._rows (rank names as strings, "1" .. "10"). -/
def rowsL : List Str := ["1","2","3","4","5","6","7","8","9","10"].map String.toList

/-- Board._red_palace. -/
def redPalace : List Str :=
  ["d1","e1","f1","d2","e2","f2","d3","e3","f3"].map String.toList

/-- Board._black_palace. -/
def blackPalace : List Str :=
  ["d8","e8","f8","d9","e9","f9","d10","e10","f10"].map String.toList

/-- Board.get_coordinates_from_pos: position string to (row index, column
index).  The source wraps the two list .index calls in a bare try/except and
returns None on any failure, so this function is total with `none` as the
Python None. -/
def get_coordinates_from_pos (pos : Str) : Option (Nat × Nat) :=
  match pos with
  | [] => none
  | c :: rest =>
    match listIndex? rest rowsL, listIndex? c columnsL with
    | some i, some j => some (i, j)
    | _, _ => none

/-- Board.is_valid_pos. -/
def is_valid_pos (pos : Str) : Bool :=
  (get_coordinates_from_pos pos).isSome

/-- Board.get_pos_from_coordinates.  The source returns None for negative or
out-of-range indices (IndexError is caught); with Nat indices only the
out-of-range case remains. -/
def get_pos_from_coordinates (row col : Nat) : Option Str :=
  match columnsL[col]?, rowsL[row]? with
  | some c, some r => some (c :: r)
  | _, _ => none

/-- Board.get_value_at_pos: contents of a square, None for an invalid
position (the source catches the IndexError). -/
def get_value_at_pos (layout : List (List Str)) (pos : Str) : Option Str :=
  match get_coordinates_from_pos pos with
  | none => none
  | some (i, j) =>
    match layout[i]? with
    | none => none
    | some row => row[j]?

/-- Board.get_row with its optional start and end columns made explicit
(the source defaults are 'a' and 'i').  Returns None when an argument fails
the membership pre-checks.  The layout indexing (always in range for the
engine's 10-row layout) is modelled with a default. -/
def get_row (layout : List (List Str)) (row : Str) (p1 p2 : Char) :
    Option (List Str) :=
  if ¬ (rowsL.contains row ∧ columnsL.contains p1 ∧ columnsL.contains p2) then
    none
  else
    let i := ((parseInt row).getD 0 - 1).toNat
    let lo := p1.toNat - 'a'.toNat
    let hi := p2.toNat - 'a'.toNat + 1
    some (((layout[i]?.getD []).drop lo).take (hi - lo))

/-- Board.get_row_positions (source defaults: 'a' to 'i'). -/
def get_row_positions (row : Str) (p1 p2 : Char) : Option (List Str) :=
  if ¬ (rowsL.contains row ∧ columnsL.contains p1 ∧ columnsL.contains p2) then
    none
  else
    let lo := p1.toNat - 'a'.toNat
    let hi := p2.toNat - 'a'.toNat + 1
    some (((columnsL.drop lo).take (hi - lo)).map (fun c => c :: row))

/-- Board.get_column (source defaults: "1" to "10").  The final line of the
source is `return column.reverse() if int(pos1) > int(pos2) else column`;
Python list.reverse() mutates and returns None, so the descending case
returns None, modelled here as `none`. -/
def get_column (layout : List (List Str)) (col : Char) (p1 p2 : Str) :
    Option (List Str) :=
  if ¬ (columnsL.contains col ∧ rowsL.contains p1 ∧ rowsL.contains p2) then
    none
  else
    let n1 := (parseInt p1).getD 0
    let n2 := (parseInt p2).getD 0
    match get_coordinates_from_pos (col :: (toString (min n1 n2)).toList),
        get_coordinates_from_pos (col :: (toString (max n1 n2)).toList) with
    | some (ilo, jlo), some (ihi, _) =>
      let column := ((List.range 10).map (fun i =>
        (List.range 9).filterMap (fun j =>
          if j = jlo ∧ ilo ≤ i ∧ i ≤ ihi then
            some (((layout[i]?.getD [])[j]?).getD emptyL)
          else none))).flatten
      if n1 > n2 then none else some column
    | _, _ => none

/-- Board.get_column_positions (source defaults: "1" to "10"). -/
def get_column_positions (col : Char) (p1 p2 : Str) : Option (List Str) :=
  if ¬ (columnsL.contains col ∧ rowsL.contains p1 ∧ rowsL.contains p2) then
    none
  else
    let n1 := ((parseInt p1).getD 0).toNat
    let n2 := ((parseInt p2).getD 0).toNat
    some (((rowsL.drop (n1 - 1)).take (n2 - (n1 - 1))).map (fun r => col :: r))

/-- Board.is_in_palace: any color other than red checks the black palace,
exactly as the source's if/fallthrough does. -/
def is_in_palace (pos : Str) (color : Char) : Bool :=
  if color = redC then redPalace.contains pos else blackPalace.contains pos

/-- Board.is_behind_river.  Unlike every other geometry query this one calls
int() on the rank substring with no exception handler, so `none` models the
ValueError raised on a malformed rank (only reachable when the color is red
or black, because Python's `and` short-circuits). -/
def is_behind_river (pos : Str) (color : Char) : Option Bool :=
  if color = redC then
    match parseInt (pos.drop 1) with
    | none => none
    | some n => if n ≤ 5 then some true else some false
  else if color = blackC then
    match parseInt (pos.drop 1) with
    | none => none
    | some n => if n ≥ 6 then some true else some false
  else some false

/-! Pieces.  A Piece carries its label ("GR1": kind, color, instance index)
and its current position; kind and color are read off the label as in the
source (label[0], label[1]). -/

/-- A live piece: label and current position. -/
structure Piece where
  label : Str
  pos : Str
deriving DecidableEq

/-- Piece.get_type (label[0]). -/
def Piece.ptype (p : Piece) : Char := p.label.headD ' '

/-- Piece.get_color (label[1]). -/
def Piece.pcolor (p : Piece) : Char := p.label[1]?.getD ' '

/-- Pieces.get_piece_by_label: first (dict) entry with the label. -/
def get_piece_by_label (pieces : List Piece) (lab : Str) : Option Piece :=
  pieces.find? (fun p => p.label = lab)

/-- Pieces.get_piece_by_pos: iterates the collection and returns the FIRST
piece found at the position, or None. -/
def get_piece_by_pos (pieces : List Piece) (pos : Str) : Option Piece :=
  pieces.find? (fun p => p.pos = pos)

/-- Pieces.get_pieces_by_pos builds a dict keyed by position, so the LAST
piece at a position wins; this is its lookup. -/
def get_pieces_by_pos_lookup (pieces : List Piece) (pos : Str) : Option Piece :=
  (pieces.filter (fun p => p.pos = pos)).getLast?

/-- ord(pos1[0]) - ord(pos2[0]) as an integer. -/
def fileDiff (pos1 pos2 : Str) : Int :=
  ((pos1.headD ' ').toNat : Int) - ((pos2.headD ' ').toNat : Int)

/-- File letter of a position (pos[0]). -/
def posFile (pos : Str) : Char := pos.headD ' '

/-- Rank of a position, int(pos[1:]).  The default 0 is unreachable for the
valid positions on which the engine evaluates ranks. -/
def posRank (pos : Str) : Int := (parseInt (pos.drop 1)).getD 0

/-- int(pos1[1:]) - int(pos2[1:]). -/
def rankDiff (pos1 pos2 : Str) : Int := posRank pos1 - posRank pos2

/-- The column scan of General.is_valid_move: fetch the destination's file,
write the destination cell, slice the inclusive span between the two General
positions, drop empty cells and test whether only selfType-initialed cells
remain (the "flying general" condition). -/
def general_flying_blocked (selfType : Char) (pos2 egpos : Str)
    (layout : List (List Str)) : Bool :=
  let column := (get_column layout (posFile pos2) "1".toList "10".toList).getD []
  let column2 := column.set (posRank pos2 - 1).toNat [selfType]
  let lo := (min (posRank pos2 - 1) (posRank egpos - 1)).toNat
  let hi := (max (posRank pos2) (posRank egpos)).toNat
  let seg := ((column2.drop lo).take (hi - lo)).filter (fun point => point ≠ emptyL)
  seg.all (fun point => point.headD ' ' = selfType)

/-- General.is_valid_move.  selfType is self.get_type() ('G' for a real
General). -/
def general_is_valid_move (selfType : Char) (pos1 pos2 : Str)
    (layout : List (List Str)) (pieces : List Piece) (player : Char) : Bool :=
  if is_in_palace pos2 player ≠ true then false
  else if ¬ (((fileDiff pos1 pos2).natAbs = 0 ∧ (rankDiff pos1 pos2).natAbs = 1) ∨
      ((fileDiff pos1 pos2).natAbs = 1 ∧ (rankDiff pos1 pos2).natAbs = 0)) then false
  else
    match get_piece_by_label pieces
        (if player = redC then "GB1".toList else "GR1".toList) with
    | none => true
    | some eg =>
      if posFile eg.pos = posFile pos2 then
        if general_flying_blocked selfType pos2 eg.pos layout then false else true
      else true

/-- Advisor.is_valid_move (the source's `is not 1` on small ints behaves as
inequality in CPython). -/
def advisor_is_valid_move (pos1 pos2 : Str) (player : Char) : Bool :=
  if is_in_palace pos2 player ≠ true then false
  else if ¬ ((fileDiff pos1 pos2).natAbs = 1 ∧ (rankDiff pos1 pos2).natAbs = 1) then false
  else true

/-- Elephant.is_valid_move. -/
def elephant_is_valid_move (pos1 pos2 : Str) (pieces : List Piece)
    (player : Char) : Bool :=
  if ¬ (is_behind_river pos2 player = some true) then false
  else if ¬ ((fileDiff pos1 pos2).natAbs = 2 ∧ (rankDiff pos1 pos2).natAbs = 2) then false
  else
    let middle := Char.ofNat ((max (posFile pos1) (posFile pos2)).toNat - 1) ::
      (toString (max (posRank pos1) (posRank pos2) - 1)).toList
    if (get_piece_by_pos pieces middle).isSome then false else true

/-- Horse._range: the eight L-offsets tested as (pos1 - pos2). -/
def horseRange : List (Int × Int) :=
  [(2,1),(2,-1),(1,2),(1,-2),(-1,2),(-1,-2),(-2,1),(-2,-1)]

/-- Horse.is_valid_move with the two hobbled-leg checks. -/
def horse_is_valid_move (pos1 pos2 : Str) (pieces : List Piece) : Bool :=
  if ¬ horseRange.contains (fileDiff pos1 pos2, rankDiff pos1 pos2) then false
  else if (fileDiff pos1 pos2).natAbs = 2 ∧
      (get_piece_by_pos pieces
        (Char.ofNat ((max (posFile pos1) (posFile pos2)).toNat - 1) :: pos1.drop 1)).isSome
    then false
  else if (rankDiff pos1 pos2).natAbs = 2 ∧
      (get_piece_by_pos pieces
        (posFile pos1 :: (toString (min (posRank pos1 + 1) (posRank pos2 + 1))).toList)).isSome
    then false
  else true

/-- Soldier forward rank delta, _range_lo[color][0][1] (a color other than
red or black would raise KeyError in the source; the engine only constructs
red and black soldiers). -/
def soldier_forward (c : Char) : Int := if c = redC then 1 else -1

/-- Soldier.is_valid_move.  selfColor is the piece's own color (used for the
offset tables), player the moving side (used for the river test); the engine
calls it only when the two agree.  A ValueError from is_behind_river cannot
occur on the validated positions the engine passes. -/
def soldier_is_valid_move (selfColor : Char) (pos1 pos2 : Str) (player : Char) :
    Bool :=
  let behind := is_behind_river pos2 player
  if behind = some true ∧
      ¬ (posFile pos1 = posFile pos2 ∧
         posRank pos2 - posRank pos1 = soldier_forward selfColor) then false
  else if behind = some false ∧
      ¬ (((fileDiff pos1 pos2).natAbs = 1 ∧ posRank pos2 - posRank pos1 = 0) ∨
         ((fileDiff pos1 pos2).natAbs = 0 ∧
          posRank pos2 - posRank pos1 = soldier_forward selfColor)) then false
  else true

/-- Chariot._filter_side_of_piece: squares outward in one direction up to and
including the first occupied square.  (The source compares with `is not`
against the interned empty marker, which CPython makes behave as equality.) -/
def chariot_filter_side (layout : List (List Str)) : List Str → List Str
  | [] => []
  | q :: rest =>
    if get_value_at_pos layout q ≠ some emptyL then [q]
    else q :: chariot_filter_side layout rest

/-- Cannon._filter_side_of_piece: empty squares before the screen, the screen
itself only when friendly (the registry check rejects it later), then after
the screen only an enemy-occupied square, where the scan stops. -/
def cannon_filter_side (selfColor : Char) (layout : List (List Str)) :
    Bool → List Str → List Str
  | _, [] => []
  | leaped, q :: rest =>
    if get_value_at_pos layout q ≠ some emptyL then
      if leaped = false then
        (if ((get_value_at_pos layout q).getD [])[1]? = some selfColor
          then [q] else []) ++ cannon_filter_side selfColor layout true rest
      else
        if ((get_value_at_pos layout q).getD [])[1]? ≠ some selfColor
          then [q] else []
    else
      if leaped = false then q :: cannon_filter_side selfColor layout leaped rest
      else cannon_filter_side selfColor layout leaped rest

/-- Chariot._filter_range_by_closest_pieces: split the row/column positions
at the piece's own position, scan both sides outward, and reassemble. -/
def filter_range_by_closest (filterSide : List Str → List Str) (pos : Str)
    (pos_arr : List Str) : List Str :=
  let i := (listIndex? pos pos_arr).getD 0
  (filterSide ((pos_arr.take i).reverse)).reverse ++ [pos] ++
    filterSide (pos_arr.drop (i + 1))

/-- Chariot._update_ranges' _pos_range, recomputed functionally from the
current board (the source caches it on the piece and refreshes it in
map_attack_range before every use). -/
def chariot_pos_range (layout : List (List Str)) (pos : Str) : List Str :=
  filter_range_by_closest (chariot_filter_side layout) pos
      ((get_row_positions (pos.drop 1) 'a' 'i').getD []) ++
    filter_range_by_closest (chariot_filter_side layout) pos
      ((get_column_positions (posFile pos) "1".toList "10".toList).getD [])

/-- Cannon's _pos_range, same shape with the Cannon scan. -/
def cannon_pos_range (selfColor : Char) (layout : List (List Str)) (pos : Str) :
    List Str :=
  filter_range_by_closest (cannon_filter_side selfColor layout false) pos
      ((get_row_positions (pos.drop 1) 'a' 'i').getD []) ++
    filter_range_by_closest (cannon_filter_side selfColor layout false) pos
      ((get_column_positions (posFile pos) "1".toList "10".toList).getD [])

/-- Chariot.is_valid_move: membership of the destination in _pos_range. -/
def chariot_is_valid_move (layout : List (List Str)) (pos1 pos2 : Str) : Bool :=
  (chariot_pos_range layout pos1).contains pos2

/-- Cannon.is_valid_move (inherited dispatch, Cannon scan). -/
def cannon_is_valid_move (selfColor : Char) (layout : List (List Str))
    (pos1 pos2 : Str) : Bool :=
  (cannon_pos_range selfColor layout pos1).contains pos2

/-- Dispatch of Piece.is_valid_move on the label's kind character.  A kind
outside the seven real kinds never occurs (the source would have no such
subclass). -/
def piece_is_valid_move (p : Piece) (pos1 pos2 : Str)
    (layout : List (List Str)) (pieces : List Piece) (player : Char) : Bool :=
  if p.ptype = 'G' then general_is_valid_move p.ptype pos1 pos2 layout pieces player
  else if p.ptype = 'A' then advisor_is_valid_move pos1 pos2 player
  else if p.ptype = 'E' then elephant_is_valid_move pos1 pos2 pieces player
  else if p.ptype = 'H' then horse_is_valid_move pos1 pos2 pieces
  else if p.ptype = 'C' then chariot_is_valid_move layout pos1 pos2
  else if p.ptype = 'N' then cannon_is_valid_move p.pcolor layout pos1 pos2
  else if p.ptype = 'S' then soldier_is_valid_move p.pcolor pos1 pos2 player
  else true

/-- Pieces.is_valid_move: the registry-level candidate checks, then the
piece-specific rule. -/
def pieces_is_valid_move (pos1 pos2 : Str) (layout : List (List Str))
    (pieces : List Piece) (player : Char) : Bool :=
  if is_valid_pos pos1 = false ∨ is_valid_pos pos2 = false then false
  else if pos1 = pos2 then false
  else
    match get_piece_by_pos pieces pos1 with
    | none => false
    | some p1 =>
      if p1.pcolor ≠ player then false
      else
        match get_piece_by_pos pieces pos2 with
        | some p2 =>
          if p2.pcolor = player then false
          else piece_is_valid_move p1 pos1 pos2 layout pieces player
        | none => piece_is_valid_move p1 pos1 pos2 layout pieces player

/-- Destination string built from an offset in
Piece._map_attack_range_from_offsets: chr(ord(file)+dx) ++ str(rank+dy). -/
def dest_of (pos : Str) (o : Int × Int) : Str :=
  Char.ofNat (((posFile pos).toNat : Int) + o.1).toNat ::
    (toString (posRank pos + o.2)).toList

/-- Piece._map_attack_range_from_offsets: keep each offset destination that
passes Pieces.is_valid_move for this piece's color. -/
def map_range_from_offsets (layout : List (List Str)) (pieces : List Piece)
    (p : Piece) (offsets : List (Int × Int)) : List Str :=
  (offsets.map (dest_of p.pos)).filter
    (fun d => pieces_is_valid_move p.pos d layout pieces p.pcolor)

/-- Fixed _range offset tables of General, Advisor, Elephant, Horse. -/
def base_range (t : Char) : List (Int × Int) :=
  if t = 'G' then [(-1,0),(0,-1),(0,1),(1,0)]
  else if t = 'A' then [(-1,-1),(-1,1),(1,-1),(1,1)]
  else if t = 'E' then [(-2,-2),(-2,2),(2,-2),(2,2)]
  else if t = 'H' then horseRange
  else []

/-- Soldier._range_lo. -/
def soldier_lo (c : Char) : List (Int × Int) :=
  if c = redC then [(0,1)] else [(0,-1)]

/-- Soldier._range_hi. -/
def soldier_hi (c : Char) : List (Int × Int) :=
  if c = redC then [(0,1),(-1,1),(1,1)] else [(0,-1),(-1,-1),(1,-1)]

/-- Chariot._update_ranges' offset list: row and column positions turned into
offsets from the current position, deduplicated.  The source goes through
list(set(...)), whose order is unspecified; eraseDups keeps first occurrences,
and nothing proved below depends on the order. -/
def chariot_range_offsets (layout : List (List Str)) (pos : Str) :
    List (Int × Int) :=
  let row := filter_range_by_closest (chariot_filter_side layout) pos
    ((get_row_positions (pos.drop 1) 'a' 'i').getD [])
  let col := filter_range_by_closest (chariot_filter_side layout) pos
    ((get_column_positions (posFile pos) "1".toList "10".toList).getD [])
  ((row.map (fun q => (fileDiff q pos, rankDiff q pos))) ++
    (col.map (fun q => (fileDiff q pos, rankDiff q pos)))).eraseDups

/-- Cannon's offset list, same shape with the Cannon scan. -/
def cannon_range_offsets (selfColor : Char) (layout : List (List Str))
    (pos : Str) : List (Int × Int) :=
  let row := filter_range_by_closest (cannon_filter_side selfColor layout false)
    pos ((get_row_positions (pos.drop 1) 'a' 'i').getD [])
  let col := filter_range_by_closest (cannon_filter_side selfColor layout false)
    pos ((get_column_positions (posFile pos) "1".toList "10".toList).getD [])
  ((row.map (fun q => (fileDiff q pos, rankDiff q pos))) ++
    (col.map (fun q => (fileDiff q pos, rankDiff q pos)))).eraseDups

/-- Piece.map_attack_range, dispatched per kind as the subclasses override
it: Chariot/Cannon refresh their ray ranges first, the Soldier picks its
offset table by the river test on its own position, everything else uses its
fixed _range. -/
def piece_attack_range (layout : List (List Str)) (pieces : List Piece)
    (p : Piece) : List Str :=
  if p.ptype = 'C' then
    map_range_from_offsets layout pieces p (chariot_range_offsets layout p.pos)
  else if p.ptype = 'N' then
    map_range_from_offsets layout pieces p (cannon_range_offsets p.pcolor layout p.pos)
  else if p.ptype = 'S' then
    if ¬ (is_behind_river p.pos p.pcolor = some true) then
      map_range_from_offsets layout pieces p (soldier_hi p.pcolor)
    else map_range_from_offsets layout pieces p (soldier_lo p.pcolor)
  else map_range_from_offsets layout pieces p (base_range p.ptype)

/-- An attack map: dict from destination square to the labels of the attacking
pieces, in insertion order. -/
abbrev AttackMap := List (Str × List Str)

/-- One insertion step of Pieces._update_attack_ranges: new key appended with
a singleton list, existing key's list extended. -/
def add_attack (m : AttackMap) (sq lab : Str) : AttackMap :=
  if (m.find? (fun e => e.1 = sq)).isSome then
    m.map (fun e => if e.1 = sq then (e.1, e.2 ++ [lab]) else e)
  else m ++ [(sq, [lab])]

/-- Folding one piece's attack range into the two maps (the source guards
with len(attack_range) > 0, a no-op kept for fidelity; colors other than
red and black fall through all four branches). -/
def fold_piece_attacks (mr mb : AttackMap) (p : Piece) (range : List Str) :
    AttackMap × AttackMap :=
  if range.length > 0 then
    range.foldl (fun acc sq =>
      if p.pcolor = redC then (add_attack acc.1 sq p.label, acc.2)
      else if p.pcolor = blackC then (acc.1, add_attack acc.2 sq p.label)
      else acc) (mr, mb)
  else (mr, mb)

/-- Pieces._update_attack_ranges over the pieces paired with their freshly
computed attack ranges. -/
def update_attack_ranges (ranged : List (Piece × List Str)) :
    AttackMap × AttackMap :=
  ranged.foldl (fun acc pr => fold_piece_attacks acc.1 acc.2 pr.1 pr.2) ([], [])

/-- The state of the Pieces object: the ordered piece dict, the two attack
maps, and the single captured-piece buffer. -/
structure PiecesSt where
  pieces : List Piece
  redMap : AttackMap
  blackMap : AttackMap
  captured : Option Piece
deriving DecidableEq

/-- The two attack maps recomputed from scratch for a board and piece list. -/
def computed_maps (layout : List (List Str)) (pieces : List Piece) :
    AttackMap × AttackMap :=
  update_attack_ranges (pieces.map (fun p => (p, piece_attack_range layout pieces p)))

/-- Pieces.map_all_attack_ranges: recompute every piece's range, then rebuild
both maps. -/
def map_all_attack_ranges (layout : List (List Str)) (ps : PiecesSt) : PiecesSt :=
  { ps with redMap := (computed_maps layout ps.pieces).1,
            blackMap := (computed_maps layout ps.pieces).2 }

/-- Pieces.get_attack_map: red's map for the red color value, otherwise
black's. -/
def get_attack_map (ps : PiecesSt) (color : Char) : AttackMap :=
  if color = redC then ps.redMap else ps.blackMap

/-- Pieces.get_all_possible_moves: every (attacker position, destination)
pair in the color's attack map.  A label missing from the registry would
raise in the source; it is skipped here and never occurs after a rebuild. -/
def get_all_possible_moves (ps : PiecesSt) (color : Char) : List (Str × Str) :=
  (get_attack_map ps color).flatMap (fun e =>
    e.2.filterMap (fun lab =>
      (get_piece_by_label ps.pieces lab).map (fun p => (p.pos, e.1))))

/-- Pieces.is_in_check.  Outer `none` models the AttributeError when the
looked-up General is missing; `some none` is the source's explicit None
return for an unrecognized color; `some (some b)` is a boolean answer. -/
def pieces_is_in_check (ps : PiecesSt) (color : Str) : Option (Option Bool) :=
  if lowerStr color = "black".toList ∨ color = [blackC] then
    match get_piece_by_label ps.pieces "GB1".toList with
    | none => none
    | some g => some (some ((ps.redMap.find? (fun e => e.1 = g.pos)).isSome))
  else if lowerStr color = "red".toList ∨ color = [redC] then
    match get_piece_by_label ps.pieces "GR1".toList with
    | none => none
    | some g => some (some ((ps.blackMap.find? (fun e => e.1 = g.pos)).isSome))
  else some none

/-- Python del of a dict key: remove the (unique) entry with this label. -/
def erase_by_label : List Piece → Str → List Piece
  | [], _ => []
  | p :: rest, lab => if p.label = lab then rest else p :: erase_by_label rest lab

/-- get_piece_by_pos(src).update_pos(dst): relocate the first piece found at
src (the source would raise on None; the engine only calls this when a piece
is there). -/
def move_piece : List Piece → Str → Str → List Piece
  | [], _, _ => []
  | p :: rest, src, dst =>
    if p.pos = src then { p with pos := dst } :: rest
    else p :: move_piece rest src dst

/-- Pieces._remove_captured_piece: buffer and delete an enemy piece at the
destination, otherwise clear the buffer. -/
def remove_captured (ps : PiecesSt) (pos : Str) (player : Char) : PiecesSt :=
  match get_piece_by_pos ps.pieces pos with
  | some p =>
    if p.pcolor ≠ player then
      { ps with captured := some p, pieces := erase_by_label ps.pieces p.label }
    else { ps with captured := none }
  | none => { ps with captured := none }

/-- Pieces._restore_captured_piece: reinsert the buffered piece (at the END
of the dict, as Python reinsertion after deletion does) and clear the
buffer. -/
def restore_captured (ps : PiecesSt) : PiecesSt :=
  match ps.captured with
  | some p => { ps with pieces := ps.pieces ++ [p], captured := none }
  | none => ps

/-- Board.update_layout: rebuild the 10 x 9 grid from the registry (the
source overwrites its existing grid cell by cell, which always has this
shape). -/
def update_layout (pieces : List Piece) : List (List Str) :=
  (List.range 10).map (fun i => (List.range 9).map (fun j =>
    match get_pos_from_coordinates i j with
    | some pos =>
      match get_pieces_by_pos_lookup pieces pos with
      | some p => p.label
      | none => emptyL
    | none => emptyL))

/-- Game-state string UNFINISHED. -/
def unfinishedS : Str := "UNFINISHED".toList

/-- Game-state string RED_WON. -/
def redWonS : Str := "RED_WON".toList

/-- Game-state string BLACK_WON. -/
def blackWonS : Str := "BLACK_WON".toList

/-- The XiangqiGame state: board projection, piece registry, game-state
string and current player. -/
structure Game where
  board : List (List Str)
  ps : PiecesSt
  currentGameState : Str
  currentPlayer : Char
deriving DecidableEq

/-- Outcome of the shared front of make_move: candidate rejection, self-check
rejection (with the speculative state to undo), or acceptance (with the
post-move state). -/
inductive MoveOutcome
  | invalid : MoveOutcome
  | selfCheck : Game → MoveOutcome
  | accepted : Game → MoveOutcome

/-- The speculative mutation at the heart of make_move: buffer and remove a
captured enemy at pos2, relocate the piece at pos1 to pos2, rebuild the board
projection and both attack maps. -/
def speculative_state (g : Game) (pos1 pos2 : Str) : Game :=
  let ps1 := remove_captured g.ps pos2 g.currentPlayer
  let ps2 := { ps1 with pieces := move_piece ps1.pieces pos1 pos2 }
  let b2 := update_layout ps2.pieces
  { g with board := b2, ps := map_all_attack_ranges b2 ps2 }

/-- The shared front of XiangqiGame.make_move: validate, apply the
speculative mutation, test self-check. -/
def make_move_base (g : Game) (pos1 pos2 : Str) : MoveOutcome :=
  if pieces_is_valid_move pos1 pos2 g.board g.ps.pieces g.currentPlayer = true then
    if pieces_is_in_check (speculative_state g pos1 pos2).ps [g.currentPlayer] =
        some (some true) then
      MoveOutcome.selfCheck (speculative_state g pos1 pos2)
    else MoveOutcome.accepted (speculative_state g pos1 pos2)
  else MoveOutcome.invalid

/-- XiangqiGame._undo_move: relocate the piece at pos2 back to pos1, restore
the buffered capture, rebuild board and maps. -/
def undo_move (g : Game) (pos1 pos2 : Str) : Game :=
  let ps1 := { g.ps with pieces := move_piece g.ps.pieces pos2 pos1 }
  let ps2 := restore_captured ps1
  let b2 := update_layout ps2.pieces
  { g with board := b2, ps := map_all_attack_ranges b2 ps2 }

/-- XiangqiGame.make_move with test=True: same path, but a successful move is
undone and still reported as True.  This branch never calls
_update_game_state, which bounds the source's recursion. -/
def make_move_test (g : Game) (pos1 pos2 : Str) : Bool × Game :=
  if g.currentGameState ≠ unfinishedS then (false, g)
  else
    match make_move_base g pos1 pos2 with
    | MoveOutcome.invalid => (false, g)
    | MoveOutcome.selfCheck g1 => (false, undo_move g1 pos1 pos2)
    | MoveOutcome.accepted g1 => (true, undo_move g1 pos1 pos2)

/-- XiangqiGame._switch_player. -/
def switch_player (g : Game) : Game :=
  { g with currentPlayer := if g.currentPlayer = redC then blackC else redC }

/-- The probe loop of XiangqiGame._is_game_over: run each candidate through
make_move in test mode, threading the (probed-and-undone) state; stop at the
first success.  Returns (no-escape?, final state). -/
def probe_moves : Game → List (Str × Str) → Bool × Game
  | g, [] => (true, g)
  | g, m :: rest =>
    match make_move_test g m.1 m.2 with
    | (true, g1) => (false, g1)
    | (false, g1) => probe_moves g1 rest

/-- XiangqiGame._is_game_over: enumerate the side-to-act's attack-map moves
once, then probe them. -/
def is_game_over (g : Game) : Bool × Game :=
  probe_moves g (get_all_possible_moves g.ps g.currentPlayer)

/-- XiangqiGame._update_game_state: when no probe succeeds, score the win for
the side that just moved. -/
def update_game_state (g : Game) : Game :=
  match is_game_over g with
  | (true, g1) =>
    { g1 with currentGameState :=
        if g1.currentPlayer = redC then blackWonS else redWonS }
  | (false, g1) => g1

/-- XiangqiGame.make_move.  The test branch is make_move_test; a real
accepted move switches the player and runs the termination check. -/
def make_move (g : Game) (pos1 pos2 : Str) (test : Bool) : Bool × Game :=
  if test = true then make_move_test g pos1 pos2
  else if g.currentGameState ≠ unfinishedS then (false, g)
  else
    match make_move_base g pos1 pos2 with
    | MoveOutcome.invalid => (false, g)
    | MoveOutcome.selfCheck g1 => (false, undo_move g1 pos1 pos2)
    | MoveOutcome.accepted g1 => (true, update_game_state (switch_player g1))

/-! Small helper lemmas about the list primitives of the model. -/

/-- listIndex? only answers for members. -/
theorem listIndex?_mem {α : Type} [DecidableEq α] {a : α} :
    ∀ {l : List α} {i : Nat}, listIndex? a l = some i → a ∈ l := by
  intro l
  induction l with
  | nil => intro i h; simp [listIndex?] at h
  | cons b t ih =>
    intro i h
    by_cases hb : b = a
    · subst hb; exact List.mem_cons_self _ _
    · simp [listIndex?, hb] at h
      rcases h with ⟨j, hj, _⟩
      exact List.mem_cons_of_mem _ (ih hj)

/-- A valid position is a column letter consed on a rank string from rowsL. -/
theorem valid_pos_shape {pos : Str} (h : is_valid_pos pos = true) :
    posFile pos ∈ columnsL ∧ pos.drop 1 ∈ rowsL ∧ pos = posFile pos :: pos.drop 1 := by
  cases pos with
  | nil => simp [is_valid_pos, get_coordinates_from_pos] at h
  | cons c rest =>
    have h2 : (match listIndex? rest rowsL, listIndex? c columnsL with
        | some i, some j => some ((i, j) : Nat × Nat)
        | _, _ => none).isSome = true := h
    cases hi : listIndex? rest rowsL with
    | none => rw [hi] at h2; simp at h2
    | some i =>
      cases hj : listIndex? c columnsL with
      | none => rw [hi, hj] at h2; simp at h2
      | some j =>
        exact ⟨listIndex?_mem hj, listIndex?_mem hi, rfl⟩

/-- Every rank string of the board parses as an integer. -/
theorem parseInt_rowsL {r : Str} (h : r ∈ rowsL) : (parseInt r).isSome := by
  have hall : rowsL.all (fun r => (parseInt r).isSome) = true := by decide
  rw [List.all_eq_true] at hall
  exact hall r h

/-- C7: in any state whose game state is not UNFINISHED, make_move returns
False for every argument pair and probe flag and leaves the whole state
(pieces, board, attack maps, player, game state) unchanged; in particular a
RED_WON or BLACK_WON state never changes. -/
theorem C7_terminal_frozen (g : Game) (pos1 pos2 : Str) (test : Bool)
    (h : g.currentGameState ≠ unfinishedS) :
    make_move g pos1 pos2 test = (false, g) := by
  cases test <;> simp [make_move, make_move_test, h]

/-- Terminal game used to witness C7. -/
def termGame : Game :=
  { board := [], ps := { pieces := [], redMap := [], blackMap := [], captured := none },
    currentGameState := redWonS, currentPlayer := redC }

/-- Witness for C7 at a concrete terminal state and concrete move. -/
theorem C7_terminal_frozen_witness :
    termGame.currentGameState ≠ unfinishedS ∧
      make_move termGame "e1".toList "e2".toList false = (false, termGame) :=
  ⟨by decide, C7_terminal_frozen termGame "e1".toList "e2".toList false (by decide)⟩

/-- C8: a color value that denotes neither red nor black (none of the forms
the source recognizes) gets the explicit unspecified result None (modelled
some none), which is distinct from every boolean check answer. -/
theorem C8_unspecified_color (ps : PiecesSt) (color : Str)
    (h1 : ¬ (lowerStr color = "black".toList ∨ color = [blackC]))
    (h2 : ¬ (lowerStr color = "red".toList ∨ color = [redC])) :
    pieces_is_in_check ps color = some none ∧
      ∀ b : Bool, pieces_is_in_check ps color ≠ some (some b) := by
  have hres : pieces_is_in_check ps color = some none := by
    unfold pieces_is_in_check
    rw [if_neg h1, if_neg h2]
  exact ⟨hres, fun b hb => by rw [hres] at hb; simp at hb⟩

/-- Witness for C8 at the color string "green" in an arbitrary small state. -/
theorem C8_unspecified_color_witness :
    pieces_is_in_check ⟨[], [], [], none⟩ "green".toList = some none :=
  (C8_unspecified_color ⟨[], [], [], none⟩ "green".toList (by decide) (by decide)).1

/-- C9 counterexample: is_behind_river raises ValueError on a malformed
coordinate (none marks the raise in the model) instead of returning a
False/None/empty result like every other Board geometry query. -/
theorem C9_behind_river_raises :
    is_valid_pos "ax".toList = false ∧ is_behind_river "ax".toList redC = none := by
  decide

/-- C9 amended: every listed Board geometry query except is_behind_river is
total on arbitrary strings, returning None/False/empty on malformed or
out-of-range inputs; is_behind_river never raises for a valid position, nor
for a color other than red and black, but raises (none) when the color is
red or black and the rank substring does not parse as an integer. -/
theorem C9_geometry_totality :
    (∀ (layout : List (List Str)) (pos : Str), is_valid_pos pos = false →
      get_coordinates_from_pos pos = none ∧ get_value_at_pos layout pos = none) ∧
    (∀ (layout : List (List Str)) (row : Str) (p1 p2 : Char),
      ¬ (rowsL.contains row ∧ columnsL.contains p1 ∧ columnsL.contains p2) →
      get_row layout row p1 p2 = none) ∧
    (∀ (layout : List (List Str)) (col : Char) (p1 p2 : Str),
      ¬ (columnsL.contains col ∧ rowsL.contains p1 ∧ rowsL.contains p2) →
      get_column layout col p1 p2 = none) ∧
    (∀ (pos : Str) (c : Char), is_valid_pos pos = false → is_in_palace pos c = false) ∧
    (∀ (pos : Str) (c : Char), c ≠ redC ∧ c ≠ blackC → (is_behind_river pos c).isSome) ∧
    (∀ (pos : Str) (c : Char), is_valid_pos pos = true → (is_behind_river pos c).isSome) := by
  refine ⟨?_, ?_, ?_, ?_, ?_, ?_⟩
  · intro layout pos h
    have hc : get_coordinates_from_pos pos = none := by
      unfold is_valid_pos at h
      cases hx : get_coordinates_from_pos pos with
      | none => rfl
      | some v => rw [hx] at h; simp at h
    exact ⟨hc, by unfold get_value_at_pos; rw [hc]⟩
  · intro layout row p1 p2 h
    unfold get_row
    rw [if_pos h]
  · intro layout col p1 p2 h
    unfold get_column
    rw [if_pos h]
  · intro pos c h
    by_contra hmem
    have hpal : is_in_palace pos c = true := by
      cases hv : is_in_palace pos c
      · exact absurd hv hmem
      · rfl
    have hvalid : is_valid_pos pos = true := by
      unfold is_in_palace at hpal
      have hall : (redPalace ++ blackPalace).all is_valid_pos = true := by decide
      rw [List.all_eq_true] at hall
      by_cases hc : c = redC
      · rw [if_pos hc] at hpal
        exact hall pos (List.mem_append_left _ (by simpa using hpal))
      · rw [if_neg hc] at hpal
        exact hall pos (List.mem_append_right _ (by simpa using hpal))
    rw [hvalid] at h
    simp at h
  · intro pos c ⟨h1, h2⟩
    unfold is_behind_river
    rw [if_neg h1, if_neg h2]
    rfl
  · intro pos c h
    have hrow := (valid_pos_shape h).2.1
    have hp : (parseInt (pos.drop 1)).isSome := parseInt_rowsL hrow
    unfold is_behind_river
    by_cases hc1 : c = redC
    · rw [if_pos hc1]
      cases hpp : parseInt (pos.drop 1) with
      | none => rw [hpp] at hp; simp at hp
      | some n => by_cases h5 : n ≤ 5 <;> simp [h5]
    · rw [if_neg hc1]
      by_cases hc2 : c = blackC
      · rw [if_pos hc2]
        cases hpp : parseInt (pos.drop 1) with
        | none => rw [hpp] at hp; simp at hp
        | some n => by_cases h6 : n ≥ 6 <;> simp [h6]
      · rw [if_neg hc2]; rfl

/-- Witness for C9's amended theorem at concrete malformed inputs. -/
theorem C9_geometry_totality_witness :
    get_coordinates_from_pos "zz".toList = none ∧
      get_value_at_pos [] "q0".toList = none ∧
      get_row [] "11".toList 'a' 'i' = none ∧
      get_column [] 'z' "1".toList "10".toList = none ∧
      is_in_palace "x42".toList redC = false ∧
      (is_behind_river "ax".toList 'q').isSome ∧
      (is_behind_river "e5".toList redC).isSome :=
  ⟨(C9_geometry_totality.1 [] "zz".toList (by decide)).1,
   (C9_geometry_totality.1 [] "q0".toList (by decide)).2,
   C9_geometry_totality.2.1 [] "11".toList 'a' 'i' (by decide),
   C9_geometry_totality.2.2.1 [] 'z' "1".toList "10".toList (by decide),
   C9_geometry_totality.2.2.2.1 "x42".toList redC (by decide),
   C9_geometry_totality.2.2.2.2.1 "ax".toList 'q' (by decide),
   C9_geometry_totality.2.2.2.2.2 "e5".toList redC (by decide)⟩

/-- C2: for an engine color (red or black), in a state whose attack maps have
been recomputed from the current piece positions, is_in_check answers True
exactly when that color's General's current position is a key of the opposing
color's attack map. -/
theorem C2_check_iff (ps : PiecesSt) (c : Char) (g : Piece)
    (hc : c = redC ∨ c = blackC)
    (hred : ps.redMap = (computed_maps (update_layout ps.pieces) ps.pieces).1)
    (hblack : ps.blackMap = (computed_maps (update_layout ps.pieces) ps.pieces).2)
    (hg : get_piece_by_label ps.pieces
        (if c = redC then "GR1".toList else "GB1".toList) = some g) :
    (pieces_is_in_check ps [c] = some (some true) ↔
      ∃ e ∈ (if c = redC then (computed_maps (update_layout ps.pieces) ps.pieces).2
             else (computed_maps (update_layout ps.pieces) ps.pieces).1),
        e.1 = g.pos) := by
  rcases hc with rfl | rfl
  · rw [if_pos rfl] at hg
    rw [if_pos rfl, ← hblack]
    unfold pieces_is_in_check
    rw [if_neg (by decide), if_pos (by decide), hg]
    simp only [Option.some.injEq]
    constructor
    · intro hsome
      have hs : (ps.blackMap.find? (fun e => e.1 = g.pos)).isSome := by
        simpa using hsome
      rcases List.find?_isSome.mp hs with ⟨e, he, hpe⟩
      exact ⟨e, he, by simpa using hpe⟩
    · intro ⟨e, he, hpe⟩
      have hs : (ps.blackMap.find? (fun e => e.1 = g.pos)).isSome :=
        List.find?_isSome.mpr ⟨e, he, by simpa using hpe⟩
      simp [hs]
  · rw [if_neg (by decide)] at hg
    rw [if_neg (by decide), ← hred]
    unfold pieces_is_in_check
    rw [if_pos (by decide), hg]
    simp only [Option.some.injEq]
    constructor
    · intro hsome
      have hs : (ps.redMap.find? (fun e => e.1 = g.pos)).isSome := by
        simpa using hsome
      rcases List.find?_isSome.mp hs with ⟨e, he, hpe⟩
      exact ⟨e, he, by simpa using hpe⟩
    · intro ⟨e, he, hpe⟩
      have hs : (ps.redMap.find? (fun e => e.1 = g.pos)).isSome :=
        List.find?_isSome.mpr ⟨e, he, by simpa using hpe⟩
      simp [hs]

/-- Pieces of the state used to witness C2: red General e1, black Chariot e5
pinning it, black General d10. -/
def w2pieces : List Piece :=
  [⟨"GR1".toList, "e1".toList⟩, ⟨"CB1".toList, "e5".toList⟩, ⟨"GB1".toList, "d10".toList⟩]

/-- Red attack map of the C2 witness state (the value of computed_maps). -/
def w2red : AttackMap := [("e2".toList, ["GR1".toList]), ("f1".toList, ["GR1".toList])]

/-- Black attack map of the C2 witness state (the value of computed_maps). -/
def w2black : AttackMap :=
  [("a5".toList, ["CB1".toList]), ("b5".toList, ["CB1".toList]), ("c5".toList, ["CB1".toList]),
   ("d5".toList, ["CB1".toList]), ("f5".toList, ["CB1".toList]), ("g5".toList, ["CB1".toList]),
   ("h5".toList, ["CB1".toList]), ("i5".toList, ["CB1".toList]), ("e1".toList, ["CB1".toList]),
   ("e2".toList, ["CB1".toList]), ("e3".toList, ["CB1".toList]), ("e4".toList, ["CB1".toList]),
   ("e6".toList, ["CB1".toList]), ("e7".toList, ["CB1".toList]), ("e8".toList, ["CB1".toList]),
   ("e9".toList, ["CB1".toList]), ("e10".toList, ["CB1".toList, "GB1".toList]),
   ("d9".toList, ["GB1".toList])]

/-- The C2 witness state, with its recomputed attack maps stored. -/
def w2ps : PiecesSt :=
  { pieces := w2pieces, redMap := w2red, blackMap := w2black, captured := none }

set_option maxHeartbeats 4000000 in
/-- Witness for C2 at a concrete pinned state: red is in check, so its
General's square appears in black's computed attack map. -/
theorem C2_check_iff_witness :
    ∃ e ∈ (if redC = redC then (computed_maps (update_layout w2ps.pieces) w2ps.pieces).2
           else (computed_maps (update_layout w2ps.pieces) w2ps.pieces).1),
      e.1 = (Piece.mk "GR1".toList "e1".toList).pos :=
  (C2_check_iff w2ps redC (Piece.mk "GR1".toList "e1".toList) (Or.inl rfl)
    (by decide) (by decide) (by decide)).mp (by decide)

/-- listIndex? answers for every member. -/
theorem listIndex?_isSome_of_mem {α : Type} [DecidableEq α] {a : α} :
    ∀ {l : List α}, a ∈ l → (listIndex? a l).isSome := by
  intro l h
  induction l with
  | nil => simp at h
  | cons b t ih =>
    by_cases hb : b = a
    · simp [listIndex?, hb]
    · rcases List.mem_cons.mp h with h1 | h2
      · exact absurd h1.symm hb
      · have ht := ih h2
        cases hx : listIndex? a t with
        | none => rw [hx] at ht; simp at ht
        | some i => simp [listIndex?, hb, hx]

/-- The 90 board squares. -/
def allPositions : List Str := columnsL.flatMap (fun c => rowsL.map (fun r => c :: r))

/-- Members of allPositions are valid positions. -/
theorem mem_allPositions_valid {pos : Str} (h : pos ∈ allPositions) :
    is_valid_pos pos = true := by
  have hall : allPositions.all is_valid_pos = true := by decide
  rw [List.all_eq_true] at hall
  exact hall pos h

/-- Valid positions are members of allPositions. -/
theorem valid_mem_allPositions {pos : Str} (h : is_valid_pos pos = true) :
    pos ∈ allPositions := by
  obtain ⟨hf, hr, hshape⟩ := valid_pos_shape h
  rw [hshape]
  unfold allPositions
  exact List.mem_flatMap.mpr ⟨posFile pos, hf, List.mem_map.mpr ⟨pos.drop 1, hr, rfl⟩⟩

/-- Modelled from the spec's words for comparison with the source validator
(the refinement side of C5): before crossing the river a Soldier moves
exactly one square forward; after crossing it moves exactly one square
forward, left, or right; forward increases the rank for red and decreases it
for black; own side of the river is rank at most 5 for red and at least 6 for
black. -/
def soldier_spec_allowed (c : Char) (pos1 pos2 : Str) : Bool :=
  let fwd : Int := if c = redC then 1 else -1
  let ownSide : Bool := if c = redC then posRank pos1 ≤ 5 else posRank pos1 ≥ 6
  if ownSide then posFile pos2 = posFile pos1 ∧ posRank pos2 = posRank pos1 + fwd
  else
    (posFile pos2 = posFile pos1 ∧ posRank pos2 = posRank pos1 + fwd) ∨
    ((fileDiff pos1 pos2).natAbs = 1 ∧ posRank pos2 = posRank pos1)

set_option maxRecDepth 100000 in
set_option maxHeartbeats 8000000 in
/-- C5: on every pair of valid board squares, the Soldier's validator accepts
exactly the spec's moves: one square forward while on its own side of the
river, one square forward, left or right after crossing; in particular every
backward move and every sideways move before crossing is rejected. -/
theorem C5_soldier_moves (pos1 pos2 : Str) (c : Char)
    (h1 : is_valid_pos pos1 = true) (h2 : is_valid_pos pos2 = true)
    (hc : c = redC ∨ c = blackC) :
    soldier_is_valid_move c pos1 pos2 c = soldier_spec_allowed c pos1 pos2 := by
  have hm1 : pos1 ∈ allPositions := valid_mem_allPositions h1
  have hm2 : pos2 ∈ allPositions := valid_mem_allPositions h2
  have hall : ∀ p1 ∈ allPositions, ∀ p2 ∈ allPositions,
      (soldier_is_valid_move redC p1 p2 redC = soldier_spec_allowed redC p1 p2) ∧
      (soldier_is_valid_move blackC p1 p2 blackC = soldier_spec_allowed blackC p1 p2) := by
    decide
  rcases hc with rfl | rfl
  · exact (hall pos1 hm1 pos2 hm2).1
  · exact (hall pos1 hm1 pos2 hm2).2

/-- Witness for C5: the red Soldier move e5 to e6 (forward across the river
boundary), where validator and spec rule agree. -/
theorem C5_soldier_moves_witness :
    soldier_is_valid_move redC "e5".toList "e6".toList redC =
      soldier_spec_allowed redC "e5".toList "e6".toList :=
  C5_soldier_moves "e5".toList "e6".toList redC (by decide) (by decide) (Or.inl rfl)

/-- The speculative mutation leaves the current player alone. -/
theorem speculative_state_player (g : Game) (p1 p2 : Str) :
    (speculative_state g p1 p2).currentPlayer = g.currentPlayer := rfl

/-- The games carried by a selfCheck or accepted outcome keep the player. -/
theorem make_move_base_player (g : Game) (p1 p2 : Str) (g1 : Game) :
    (make_move_base g p1 p2 = MoveOutcome.selfCheck g1 →
      g1.currentPlayer = g.currentPlayer) ∧
    (make_move_base g p1 p2 = MoveOutcome.accepted g1 →
      g1.currentPlayer = g.currentPlayer) := by
  unfold make_move_base
  constructor
  · intro h
    split at h
    · split at h
      · cases h; rfl
      · cases h
    · cases h
  · intro h
    split at h
    · split at h
      · cases h
      · cases h; rfl
    · cases h

/-- A test-mode move never switches the current player. -/
theorem make_move_test_player (g : Game) (p1 p2 : Str) :
    ((make_move_test g p1 p2).2).currentPlayer = g.currentPlayer := by
  unfold make_move_test
  split
  · rfl
  · cases hb : make_move_base g p1 p2 with
    | invalid => rfl
    | selfCheck g1 => exact (make_move_base_player g p1 p2 g1).1 hb
    | accepted g1 => exact (make_move_base_player g p1 p2 g1).2 hb

/-- The probe loop never switches the current player. -/
theorem probe_moves_player (g : Game) (ms : List (Str × Str)) :
    ((probe_moves g ms).2).currentPlayer = g.currentPlayer := by
  induction ms generalizing g with
  | nil => rfl
  | cons m rest ih =>
    unfold probe_moves
    cases hr : make_move_test g m.1 m.2 with
    | mk b g1 =>
      have hp : g1.currentPlayer = g.currentPlayer := by
        have hh := make_move_test_player g m.1 m.2
        rw [hr] at hh
        exact hh
      cases b
      · exact (ih g1).trans hp
      · exact hp

/-- C6: whenever every move enumerated from the side-to-act's attack map
fails when probed through make_move in test mode, _update_game_state sets the
game state to the win for the side that just moved: BLACK_WON when red is the
side to act, RED_WON when black is, with no test of whether the side to act
is in check (checkmate and stalemate are scored identically). -/
theorem C6_no_escape_win (g : Game)
    (h : (probe_moves g (get_all_possible_moves g.ps g.currentPlayer)).1 = true) :
    (update_game_state g).currentGameState =
      (if g.currentPlayer = redC then blackWonS else redWonS) := by
  unfold update_game_state is_game_over
  cases hr : probe_moves g (get_all_possible_moves g.ps g.currentPlayer) with
  | mk b g1 =>
    have hp : g1.currentPlayer = g.currentPlayer := by
      have hh := probe_moves_player g (get_all_possible_moves g.ps g.currentPlayer)
      rw [hr] at hh
      exact hh
    rw [hr] at h
    simp only at h
    subst h
    simp [hp]

/-- Pieces of the C6 witness: black General e10 mated by red Soldiers d9 and
f9 with the red General e1 closing the e-file (flying-general rule). -/
def w6pieces : List Piece :=
  [⟨"GR1".toList, "e1".toList⟩, ⟨"SR1".toList, "d9".toList⟩,
   ⟨"SR2".toList, "f9".toList⟩, ⟨"GB1".toList, "e10".toList⟩]

/-- Red attack map of the C6 witness (the value of computed_maps). -/
def w6red : AttackMap :=
  [("d1".toList, ["GR1".toList]), ("f1".toList, ["GR1".toList]),
   ("d10".toList, ["SR1".toList]), ("f10".toList, ["SR2".toList])]

/-- Black attack map of the C6 witness (the value of computed_maps). -/
def w6black : AttackMap :=
  [("d10".toList, ["GB1".toList]), ("f10".toList, ["GB1".toList])]

/-- The C6 witness game: black to act with no escape. -/
def w6g : Game :=
  { board := update_layout w6pieces,
    ps := { pieces := w6pieces, redMap := w6red, blackMap := w6black,
            captured := none },
    currentGameState := unfinishedS, currentPlayer := blackC }

set_option maxRecDepth 100000 in
set_option maxHeartbeats 8000000 in
/-- Witness for C6: in the concrete mated state both black probes fail and
the state is scored RED_WON. -/
theorem C6_no_escape_win_witness :
    (update_game_state w6g).currentGameState =
      (if w6g.currentPlayer = redC then blackWonS else redWonS) :=
  C6_no_escape_win w6g (by decide)

/-! Entry-wise invariants of the attack-map construction, used by C10 (and by
the amended C1). -/

/-- The length guard in fold_piece_attacks is a no-op: it equals the plain
fold. -/
theorem fold_piece_attacks_eq_foldl (mr mb : AttackMap) (p : Piece)
    (range : List Str) :
    fold_piece_attacks mr mb p range =
      range.foldl (fun acc sq =>
        if p.pcolor = redC then (add_attack acc.1 sq p.label, acc.2)
        else if p.pcolor = blackC then (acc.1, add_attack acc.2 sq p.label)
        else acc) (mr, mb) := by
  cases range with
  | nil => rfl
  | cons x xs => unfold fold_piece_attacks; rw [if_pos (by simp)]

/-- add_attack preserves an entry property that survives appending the new
label to the entry of its own square and holds for the fresh entry. -/
theorem add_attack_preserve {P : Str × List Str → Prop} {m : AttackMap}
    {sq0 lab0 : Str}
    (hm : ∀ e ∈ m, P e)
    (hmod : ∀ e : Str × List Str, e.1 = sq0 → P e → P (e.1, e.2 ++ [lab0]))
    (hnew : P (sq0, [lab0])) :
    ∀ e ∈ add_attack m sq0 lab0, P e := by
  intro e he
  unfold add_attack at he
  split at he
  · rcases List.mem_map.mp he with ⟨e0, he0, hfe⟩
    by_cases hk : e0.1 = sq0
    · rw [if_pos hk] at hfe
      rw [← hfe]
      exact hmod e0 hk (hm e0 he0)
    · rw [if_neg hk] at hfe
      rw [← hfe]
      exact hm e0 he0
  · rcases List.mem_append.mp he with h1 | h2
    · exact hm e h1
    · rw [List.mem_singleton.mp h2]
      exact hnew

/-- One piece's fold preserves per-map entry properties, given the insertion
conditions for every square of its range. -/
theorem fold_piece_attacks_preserve {Pr Pb : Str × List Str → Prop}
    (p : Piece) :
    ∀ (range : List Str),
    (∀ sq ∈ range, p.pcolor = redC →
      (∀ e : Str × List Str, e.1 = sq → Pr e → Pr (e.1, e.2 ++ [p.label])) ∧
        Pr (sq, [p.label])) →
    (∀ sq ∈ range, p.pcolor = blackC →
      (∀ e : Str × List Str, e.1 = sq → Pb e → Pb (e.1, e.2 ++ [p.label])) ∧
        Pb (sq, [p.label])) →
    ∀ (mr mb : AttackMap), (∀ e ∈ mr, Pr e) → (∀ e ∈ mb, Pb e) →
    (∀ e ∈ (fold_piece_attacks mr mb p range).1, Pr e) ∧
      (∀ e ∈ (fold_piece_attacks mr mb p range).2, Pb e) := by
  intro range
  induction range with
  | nil =>
    intro _ _ mr mb hr hb
    rw [fold_piece_attacks_eq_foldl]
    exact ⟨hr, hb⟩
  | cons x xs ih =>
    intro hinsr hinsb mr mb hr hb
    rw [fold_piece_attacks_eq_foldl]
    simp only [List.foldl_cons]
    by_cases hcr : p.pcolor = redC
    · rw [if_pos hcr]
      have hr2 : ∀ e ∈ add_attack mr x p.label, Pr e :=
        add_attack_preserve hr ((hinsr x (List.mem_cons_self x xs) hcr).1)
          ((hinsr x (List.mem_cons_self x xs) hcr).2)
      have := ih (fun sq hsq => hinsr sq (List.mem_cons_of_mem x hsq))
        (fun sq hsq => hinsb sq (List.mem_cons_of_mem x hsq))
        (add_attack mr x p.label) mb hr2 hb
      rw [fold_piece_attacks_eq_foldl] at this
      exact this
    · rw [if_neg hcr]
      by_cases hcb : p.pcolor = blackC
      · rw [if_pos hcb]
        have hb2 : ∀ e ∈ add_attack mb x p.label, Pb e :=
          add_attack_preserve hb ((hinsb x (List.mem_cons_self x xs) hcb).1)
            ((hinsb x (List.mem_cons_self x xs) hcb).2)
        have := ih (fun sq hsq => hinsr sq (List.mem_cons_of_mem x hsq))
          (fun sq hsq => hinsb sq (List.mem_cons_of_mem x hsq))
          mr (add_attack mb x p.label) hr hb2
        rw [fold_piece_attacks_eq_foldl] at this
        exact this
      · rw [if_neg hcb]
        have := ih (fun sq hsq => hinsr sq (List.mem_cons_of_mem x hsq))
          (fun sq hsq => hinsb sq (List.mem_cons_of_mem x hsq)) mr mb hr hb
        rw [fold_piece_attacks_eq_foldl] at this
        exact this

/-- The whole rebuild preserves per-map entry properties given the insertion
conditions for every (piece, range) pair. -/
theorem update_attack_ranges_preserve {Pr Pb : Str × List Str → Prop} :
    ∀ (ranged : List (Piece × List Str)),
    (∀ pr ∈ ranged, ∀ sq ∈ pr.2, pr.1.pcolor = redC →
      (∀ e : Str × List Str, e.1 = sq → Pr e → Pr (e.1, e.2 ++ [pr.1.label])) ∧
        Pr (sq, [pr.1.label])) →
    (∀ pr ∈ ranged, ∀ sq ∈ pr.2, pr.1.pcolor = blackC →
      (∀ e : Str × List Str, e.1 = sq → Pb e → Pb (e.1, e.2 ++ [pr.1.label])) ∧
        Pb (sq, [pr.1.label])) →
    ∀ (mr mb : AttackMap), (∀ e ∈ mr, Pr e) → (∀ e ∈ mb, Pb e) →
    (∀ e ∈ (ranged.foldl
        (fun acc pr => fold_piece_attacks acc.1 acc.2 pr.1 pr.2) (mr, mb)).1, Pr e) ∧
      (∀ e ∈ (ranged.foldl
        (fun acc pr => fold_piece_attacks acc.1 acc.2 pr.1 pr.2) (mr, mb)).2, Pb e) := by
  intro ranged
  induction ranged with
  | nil => intro _ _ mr mb hr hb; exact ⟨hr, hb⟩
  | cons pr prs ih =>
    intro hinsr hinsb mr mb hr hb
    simp only [List.foldl_cons]
    have hstep := fold_piece_attacks_preserve pr.1 pr.2
      (fun sq hsq => hinsr pr (List.mem_cons_self pr prs) sq hsq)
      (fun sq hsq => hinsb pr (List.mem_cons_self pr prs) sq hsq)
      mr mb hr hb
    exact ih (fun q hq => hinsr q (List.mem_cons_of_mem pr hq))
      (fun q hq => hinsb q (List.mem_cons_of_mem pr hq))
      (fold_piece_attacks mr mb pr.1 pr.2).1
      (fold_piece_attacks mr mb pr.1 pr.2).2 hstep.1 hstep.2

/-- Every entry of the rebuilt maps has a nonempty attacker list, and every
label in it comes from a piece of that color whose freshly computed attack
range contains the entry's square. -/
theorem computed_maps_entries (layout : List (List Str)) (pieces : List Piece) :
    (∀ e ∈ (computed_maps layout pieces).1, e.2 ≠ [] ∧ ∀ lab ∈ e.2,
      ∃ p ∈ pieces, p.pcolor = redC ∧
        e.1 ∈ piece_attack_range layout pieces p ∧ lab = p.label) ∧
    (∀ e ∈ (computed_maps layout pieces).2, e.2 ≠ [] ∧ ∀ lab ∈ e.2,
      ∃ p ∈ pieces, p.pcolor = blackC ∧
        e.1 ∈ piece_attack_range layout pieces p ∧ lab = p.label) := by
  unfold computed_maps update_attack_ranges
  refine update_attack_ranges_preserve (pieces.map
      (fun p => (p, piece_attack_range layout pieces p))) ?_ ?_ [] []
    (by intro e he; cases he) (by intro e he; cases he)
  · intro pr hpr sq hsq hcol
    rcases List.mem_map.mp hpr with ⟨p, hp, hep⟩
    rw [← hep] at hsq hcol ⊢
    refine ⟨?_, ?_⟩
    · intro e hesq he
      refine ⟨by simp, ?_⟩
      intro lab hlab
      rcases List.mem_append.mp hlab with h1 | h2
      · exact he.2 lab h1
      · rw [List.mem_singleton.mp h2, hesq]
        exact ⟨p, hp, hcol, hsq, rfl⟩
    · refine ⟨by simp, ?_⟩
      intro lab hlab
      rw [List.mem_singleton.mp hlab]
      exact ⟨p, hp, hcol, hsq, rfl⟩
  · intro pr hpr sq hsq hcol
    rcases List.mem_map.mp hpr with ⟨p, hp, hep⟩
    rw [← hep] at hsq hcol ⊢
    refine ⟨?_, ?_⟩
    · intro e hesq he
      refine ⟨by simp, ?_⟩
      intro lab hlab
      rcases List.mem_append.mp hlab with h1 | h2
      · exact he.2 lab h1
      · rw [List.mem_singleton.mp h2, hesq]
        exact ⟨p, hp, hcol, hsq, rfl⟩
    · refine ⟨by simp, ?_⟩
      intro lab hlab
      rw [List.mem_singleton.mp hlab]
      exact ⟨p, hp, hcol, hsq, rfl⟩

/-- A destination in a mapped offset range passed the full validator. -/
theorem mem_map_range_valid {layout : List (List Str)} {pieces : List Piece}
    {p : Piece} {offs : List (Int × Int)} {sq : Str}
    (h : sq ∈ map_range_from_offsets layout pieces p offs) :
    pieces_is_valid_move p.pos sq layout pieces p.pcolor = true := by
  unfold map_range_from_offsets at h
  exact (List.mem_filter.mp h).2

/-- A destination in a piece's computed attack range passed the full
validator for that piece's color. -/
theorem attack_range_valid {layout : List (List Str)} {pieces : List Piece}
    {p : Piece} {sq : Str} (h : sq ∈ piece_attack_range layout pieces p) :
    pieces_is_valid_move p.pos sq layout pieces p.pcolor = true := by
  unfold piece_attack_range at h
  split at h
  · exact mem_map_range_valid h
  · split at h
    · exact mem_map_range_valid h
    · split at h
      · split at h
        · exact mem_map_range_valid h
        · exact mem_map_range_valid h
      · exact mem_map_range_valid h

/-- The registry-level candidate facts extracted from a passing validator
call. -/
theorem is_valid_move_candidate {pos1 pos2 : Str} {layout : List (List Str)}
    {pieces : List Piece} {player : Char}
    (h : pieces_is_valid_move pos1 pos2 layout pieces player = true) :
    is_valid_pos pos1 = true ∧ is_valid_pos pos2 = true ∧ pos1 ≠ pos2 ∧
      (∃ p1, get_piece_by_pos pieces pos1 = some p1 ∧ p1.pcolor = player) ∧
      (∀ q, get_piece_by_pos pieces pos2 = some q → q.pcolor ≠ player) := by
  unfold pieces_is_valid_move at h
  split at h
  · cases h
  · next hvalid =>
    push_neg at hvalid
    split at h
    · cases h
    · next hne =>
      cases hp1 : get_piece_by_pos pieces pos1 with
      | none => rw [hp1] at h; cases h
      | some p1 =>
        rw [hp1] at h
        have h2 : (if p1.pcolor ≠ player then false
            else match get_piece_by_pos pieces pos2 with
              | some p2 => if p2.pcolor = player then false
                  else piece_is_valid_move p1 pos1 pos2 layout pieces player
              | none => piece_is_valid_move p1 pos1 pos2 layout pieces player) =
            true := h
        by_cases hcol1 : p1.pcolor ≠ player
        · rw [if_pos hcol1] at h2; cases h2
        · rw [if_neg hcol1] at h2
          have hc1 : p1.pcolor = player := by
            by_contra hne1
            exact hcol1 hne1
          refine ⟨?_, ?_, hne, ⟨p1, rfl, hc1⟩, ?_⟩
          · cases hv : is_valid_pos pos1 with
            | false => exact absurd hv hvalid.1
            | true => rfl
          · cases hv : is_valid_pos pos2 with
            | false => exact absurd hv hvalid.2
            | true => rfl
          · intro q hq
            rw [hq] at h2
            have h3 : (if q.pcolor = player then false
                else piece_is_valid_move p1 pos1 pos2 layout pieces player) =
                true := h2
            by_cases hcol2 : q.pcolor = player
            · rw [if_pos hcol2] at h3; cases h3
            · exact hcol2

/-- C10: after map_all_attack_ranges, every key of a color's attack map is a
valid on-board square not occupied (in the registry's first-match sense the
source uses) by a piece of that same color, and every (origin, destination)
pair produced by get_all_possible_moves passes the registry-level candidate
validation: both squares on-board, origin distinct from destination, a piece
of that color at the origin, no friendly piece at the destination. -/
theorem C10_attack_map_sound (layout : List (List Str)) (ps : PiecesSt) (c : Char)
    (hc : c = redC ∨ c = blackC)
    (hlab : (ps.pieces.map Piece.label).Nodup) :
    (∀ e ∈ get_attack_map (map_all_attack_ranges layout ps) c,
       is_valid_pos e.1 = true ∧
       (∀ q, get_piece_by_pos ps.pieces e.1 = some q → q.pcolor ≠ c)) ∧
    (∀ m ∈ get_all_possible_moves (map_all_attack_ranges layout ps) c,
       is_valid_pos m.1 = true ∧ is_valid_pos m.2 = true ∧ m.1 ≠ m.2 ∧
       (∃ p1, get_piece_by_pos ps.pieces m.1 = some p1 ∧ p1.pcolor = c) ∧
       (∀ q, get_piece_by_pos ps.pieces m.2 = some q → q.pcolor ≠ c)) := by
  have key : ∀ (mp : AttackMap), (∀ e ∈ mp, e.2 ≠ [] ∧ ∀ lab ∈ e.2,
      ∃ p ∈ ps.pieces, p.pcolor = c ∧
        e.1 ∈ piece_attack_range layout ps.pieces p ∧ lab = p.label) →
      (∀ e ∈ mp, is_valid_pos e.1 = true ∧
        ∀ q, get_piece_by_pos ps.pieces e.1 = some q → q.pcolor ≠ c) ∧
      (∀ m ∈ mp.flatMap (fun e => e.2.filterMap (fun lab =>
          (get_piece_by_label ps.pieces lab).map (fun p => (p.pos, e.1)))),
        is_valid_pos m.1 = true ∧ is_valid_pos m.2 = true ∧ m.1 ≠ m.2 ∧
        (∃ p1, get_piece_by_pos ps.pieces m.1 = some p1 ∧ p1.pcolor = c) ∧
        (∀ q, get_piece_by_pos ps.pieces m.2 = some q → q.pcolor ≠ c)) := by
    intro mp hchar
    constructor
    · intro e he
      obtain ⟨hne, hlabs⟩ := hchar e he
      obtain ⟨lab, hlabmem⟩ := List.exists_mem_of_ne_nil e.2 hne
      obtain ⟨p, hp, hcol, hrange, _⟩ := hlabs lab hlabmem
      have hv := attack_range_valid hrange
      rw [hcol] at hv
      obtain ⟨_, hv2, _, _, hq⟩ := is_valid_move_candidate hv
      exact ⟨hv2, hq⟩
    · intro m hm
      rcases List.mem_flatMap.mp hm with ⟨e, he, hmem⟩
      rcases List.mem_filterMap.mp hmem with ⟨lab, hlabmem, hsome⟩
      cases hp0 : get_piece_by_label ps.pieces lab with
      | none => rw [hp0] at hsome; cases hsome
      | some p0 =>
        rw [hp0] at hsome
        have hmval : m = (p0.pos, e.1) := by simpa using hsome.symm
        obtain ⟨hne, hlabs⟩ := hchar e he
        obtain ⟨p, hp, hcol, hrange, hlabeq⟩ := hlabs lab hlabmem
        have hp0mem : p0 ∈ ps.pieces := by
          unfold get_piece_by_label at hp0
          exact List.mem_of_find?_eq_some hp0
        have hp0lab : p0.label = lab := by
          unfold get_piece_by_label at hp0
          simpa using List.find?_some hp0
        have hpp : p0 = p :=
          List.inj_on_of_nodup_map hlab hp0mem hp (by rw [hp0lab, hlabeq])
        subst hpp
        subst hmval
        have hv := attack_range_valid hrange
        rw [hcol] at hv
        obtain ⟨hv1, hv2, hne12, hst, hq⟩ := is_valid_move_candidate hv
        exact ⟨hv1, hv2, hne12, hst, hq⟩
  rcases hc with rfl | rfl
  · have hmap : get_attack_map (map_all_attack_ranges layout ps) redC =
        (computed_maps layout ps.pieces).1 := by
      unfold get_attack_map map_all_attack_ranges
      rw [if_pos rfl]
    have hmoves : get_all_possible_moves (map_all_attack_ranges layout ps) redC =
        (computed_maps layout ps.pieces).1.flatMap (fun e =>
          e.2.filterMap (fun lab =>
            (get_piece_by_label ps.pieces lab).map (fun p => (p.pos, e.1)))) := by
      unfold get_all_possible_moves
      rw [hmap]
      rfl
    rw [hmap, hmoves]
    exact key (computed_maps layout ps.pieces).1
      (computed_maps_entries layout ps.pieces).1
  · have hmap : get_attack_map (map_all_attack_ranges layout ps) blackC =
        (computed_maps layout ps.pieces).2 := by
      unfold get_attack_map map_all_attack_ranges
      rw [if_neg (by decide)]
    have hmoves : get_all_possible_moves (map_all_attack_ranges layout ps) blackC =
        (computed_maps layout ps.pieces).2.flatMap (fun e =>
          e.2.filterMap (fun lab =>
            (get_piece_by_label ps.pieces lab).map (fun p => (p.pos, e.1)))) := by
      unfold get_all_possible_moves
      rw [hmap]
      rfl
    rw [hmap, hmoves]
    exact key (computed_maps layout ps.pieces).2
      (computed_maps_entries layout ps.pieces).2

set_option maxRecDepth 100000 in
set_option maxHeartbeats 8000000 in
/-- Witness for C10: in the concrete C6 state, the black move (e10, d10)
produced by get_all_possible_moves passes the candidate facts. -/
theorem C10_attack_map_sound_witness :
    is_valid_pos ("e10".toList, "d10".toList).1 = true ∧
      is_valid_pos ("e10".toList, "d10".toList).2 = true ∧
      ("e10".toList, "d10".toList).1 ≠ ("e10".toList, "d10".toList).2 := by
  have h := (C10_attack_map_sound (update_layout w6pieces) w6g.ps blackC
      (Or.inr rfl) (by decide)).2 ("e10".toList, "d10".toList) (by decide)
  exact ⟨h.1, h.2.1, h.2.2.1⟩

/-! Bridge between the rebuilt board projection and the piece registry. -/

/-- listIndex? finds its element. -/
theorem listIndex?_get {α : Type} [DecidableEq α] {a : α} :
    ∀ {l : List α} {i : Nat}, listIndex? a l = some i → l[i]? = some a := by
  intro l
  induction l with
  | nil => intro i h; simp [listIndex?] at h
  | cons b t ih =>
    intro i h
    by_cases hb : b = a
    · simp [listIndex?, hb] at h
      subst h
      simp [hb]
    · simp [listIndex?, hb] at h
      rcases h with ⟨j, hj, hji⟩
      subst hji
      simpa using ih hj

/-- Coordinates of a valid position, with the indexed lookups they satisfy. -/
theorem valid_pos_coords {pos : Str} (h : is_valid_pos pos = true) :
    ∃ i j, get_coordinates_from_pos pos = some (i, j) ∧
      rowsL[i]? = some (pos.drop 1) ∧ columnsL[j]? = some (posFile pos) ∧
      listIndex? (pos.drop 1) rowsL = some i ∧
      listIndex? (posFile pos) columnsL = some j ∧
      pos = posFile pos :: pos.drop 1 := by
  cases pos with
  | nil => simp [is_valid_pos, get_coordinates_from_pos] at h
  | cons c rest =>
    have h2 : (match listIndex? rest rowsL, listIndex? c columnsL with
        | some i, some j => some ((i, j) : Nat × Nat)
        | _, _ => none).isSome = true := h
    cases hi : listIndex? rest rowsL with
    | none => rw [hi] at h2; simp at h2
    | some i =>
      cases hj : listIndex? c columnsL with
      | none => rw [hi, hj] at h2; simp at h2
      | some j =>
        refine ⟨i, j, ?_, listIndex?_get hi, listIndex?_get hj, hi, hj, rfl⟩
        show (match listIndex? rest rowsL, listIndex? c columnsL with
          | some i, some j => some ((i, j) : Nat × Nat)
          | _, _ => none) = some (i, j)
        rw [hi, hj]

/-- The rank string at index i of rowsL prints the integer i + 1. -/
theorem rowsL_toString {i : Nat} {r : Str} (h : rowsL[i]? = some r) :
    (toString ((i : Int) + 1)).toList = r ∧ parseInt r = some ((i : Int) + 1) := by
  have hlt : i < rowsL.length := (List.getElem?_eq_some.mp h).1
  have hlen : rowsL.length = 10 := by decide
  rw [hlen] at hlt
  have hall : ∀ k ∈ List.range 10,
      (toString ((k : Int) + 1)).toList = rowsL[k]?.getD [] ∧
        parseInt (rowsL[k]?.getD []) = some ((k : Int) + 1) := by decide
  have := hall i (List.mem_range.mpr hlt)
  rw [h] at this
  exact this

/-- One cell of the rebuilt layout is the last-match registry lookup of its
square. -/
theorem update_layout_cell (pieces : List Piece) {i j : Nat} {f : Char} {r : Str}
    (hi : rowsL[i]? = some r) (hj : columnsL[j]? = some f) :
    ((update_layout pieces)[i]?.getD [])[j]? =
      some (match get_pieces_by_pos_lookup pieces (f :: r) with
            | some p => p.label
            | none => emptyL) := by
  have hilt : i < rowsL.length := (List.getElem?_eq_some.mp hi).1
  have hjlt : j < columnsL.length := (List.getElem?_eq_some.mp hj).1
  have hilt10 : i < 10 := by
    have : rowsL.length = 10 := by decide
    rw [this] at hilt
    exact hilt
  have hjlt9 : j < 9 := by
    have : columnsL.length = 9 := by decide
    rw [this] at hjlt
    exact hjlt
  unfold update_layout
  rw [List.getElem?_map, List.getElem?_range hilt10]
  simp only [Option.map_some', Option.getD_some]
  rw [List.getElem?_map, List.getElem?_range hjlt9]
  simp only [Option.map_some']
  unfold get_pos_from_coordinates
  rw [hi, hj]

/-- Value of a rebuilt cell addressed through get_value_at_pos. -/
theorem get_value_update_layout (pieces : List Piece) {pos : Str}
    (h : is_valid_pos pos = true) :
    get_value_at_pos (update_layout pieces) pos =
      some (match get_pieces_by_pos_lookup pieces pos with
            | some p => p.label
            | none => emptyL) := by
  obtain ⟨i, j, hco, hi, hj, _, _, hshape⟩ := valid_pos_coords h
  unfold get_value_at_pos
  rw [hco]
  have hcell := update_layout_cell pieces hi hj
  rw [← hshape] at hcell
  show (match (update_layout pieces)[i]? with
    | none => none
    | some row => row[j]?) =
      some (match get_pieces_by_pos_lookup pieces pos with
            | some p => p.label
            | none => emptyL)
  cases hrow : (update_layout pieces)[i]? with
  | none => rw [hrow] at hcell; simp at hcell
  | some row =>
    rw [hrow] at hcell
    simpa using hcell

/-- With pairwise distinct positions, the last-match dict lookup of
update_layout agrees with the first-match get_piece_by_pos. -/
theorem lookup_last_eq_first {pieces : List Piece}
    (hnd : (pieces.map Piece.pos).Nodup) (pos : Str) :
    get_pieces_by_pos_lookup pieces pos = get_piece_by_pos pieces pos := by
  induction pieces with
  | nil => rfl
  | cons p rest ih =>
    have hnd2 : (rest.map Piece.pos).Nodup := (List.nodup_cons.mp hnd).2
    have hnotin : p.pos ∉ rest.map Piece.pos := (List.nodup_cons.mp hnd).1
    by_cases hp : p.pos = pos
    · have hfilter : rest.filter (fun q => decide (q.pos = pos)) = [] := by
        rw [List.filter_eq_nil_iff]
        intro q hq hqpos
        simp only [decide_eq_true_eq] at hqpos
        exact hnotin (List.mem_map.mpr ⟨q, hq, by rw [hqpos, hp]⟩)
      unfold get_pieces_by_pos_lookup get_piece_by_pos
      rw [List.filter_cons, List.find?_cons]
      simp [hp, hfilter]
    · have hih := ih hnd2
      unfold get_pieces_by_pos_lookup get_piece_by_pos at hih ⊢
      have hd : (decide (p.pos = pos)) = false := decide_eq_false hp
      rw [List.filter_cons, List.find?_cons, hd]
      simpa using hih

/-- With pairwise distinct positions, a live piece is what get_piece_by_pos
finds at its own square. -/
theorem get_piece_by_pos_self {pieces : List Piece} {p : Piece}
    (hnd : (pieces.map Piece.pos).Nodup) (hp : p ∈ pieces) :
    get_piece_by_pos pieces p.pos = some p := by
  induction pieces with
  | nil => cases hp
  | cons q rest ih =>
    have hnd2 : (rest.map Piece.pos).Nodup := (List.nodup_cons.mp hnd).2
    have hnotin : q.pos ∉ rest.map Piece.pos := (List.nodup_cons.mp hnd).1
    rcases List.mem_cons.mp hp with h1 | h2
    · subst h1
      unfold get_piece_by_pos
      rw [List.find?_cons]
      simp
    · have hne : q.pos ≠ p.pos := by
        intro he
        exact hnotin (List.mem_map.mpr ⟨p, h2, he.symm⟩)
      have hih := ih hnd2 h2
      unfold get_piece_by_pos at hih ⊢
      have hd : (decide (q.pos = p.pos)) = false := decide_eq_false hne
      rw [List.find?_cons, hd]
      simpa using hih

/-- Palace squares are valid positions. -/
theorem is_in_palace_valid {pos : Str} {c : Char} (h : is_in_palace pos c = true) :
    is_valid_pos pos = true := by
  have hall : (redPalace ++ blackPalace).all is_valid_pos = true := by decide
  rw [List.all_eq_true] at hall
  unfold is_in_palace at h
  by_cases hc : c = redC
  · rw [if_pos hc] at h
    exact hall pos (List.mem_append_left _ (by simpa using h))
  · rw [if_neg hc] at h
    exact hall pos (List.mem_append_right _ (by simpa using h))

/-- Every rank string of the board parses to its integer and prints back. -/
theorem rank_spec {r : Str} (h : r ∈ rowsL) :
    ∃ n : Int, parseInt r = some n ∧ 1 ≤ n ∧ n ≤ 10 ∧ (toString n).toList = r := by
  have hall : rowsL.all (fun r =>
      match parseInt r with
      | some n => decide (1 ≤ n) && decide (n ≤ 10) && decide ((toString n).toList = r)
      | none => false) = true := by decide
  rw [List.all_eq_true] at hall
  have hr := hall r h
  cases hp : parseInt r with
  | none => rw [hp] at hr; cases hr
  | some n =>
    rw [hp] at hr
    simp only [Bool.and_eq_true, decide_eq_true_eq] at hr
    exact ⟨n, rfl, hr.1.1, hr.1.2, hr.2⟩

/-- The full-board column fetched by the General scan, cell by cell. -/
theorem get_column_full (layout : List (List Str)) {f : Char} {j : Nat}
    (hj : listIndex? f columnsL = some j) :
    get_column layout f "1".toList "10".toList =
      some ((List.range 10).map (fun i => ((layout[i]?.getD [])[j]?).getD emptyL)) := by
  have hmemf : f ∈ columnsL := listIndex?_mem hj
  have hcase : f = 'a' ∨ f = 'b' ∨ f = 'c' ∨ f = 'd' ∨ f = 'e' ∨ f = 'f' ∨
      f = 'g' ∨ f = 'h' ∨ f = 'i' := by
    have hlist : columnsL = ['a','b','c','d','e','f','g','h','i'] := by decide
    rw [hlist] at hmemf
    simpa using hmemf
  rcases hcase with rfl | rfl | rfl | rfl | rfl | rfl | rfl | rfl | rfl <;>
    (first
      | (have hj0 : j = 0 := by
          have hc : listIndex? 'a' columnsL = some 0 := by decide
          rw [hc] at hj; exact (Option.some.injEq _ _ |>.mp hj).symm
         subst hj0; rfl)
      | (have hj0 : j = 1 := by
          have hc : listIndex? 'b' columnsL = some 1 := by decide
          rw [hc] at hj; exact (Option.some.injEq _ _ |>.mp hj).symm
         subst hj0; rfl)
      | (have hj0 : j = 2 := by
          have hc : listIndex? 'c' columnsL = some 2 := by decide
          rw [hc] at hj; exact (Option.some.injEq _ _ |>.mp hj).symm
         subst hj0; rfl)
      | (have hj0 : j = 3 := by
          have hc : listIndex? 'd' columnsL = some 3 := by decide
          rw [hc] at hj; exact (Option.some.injEq _ _ |>.mp hj).symm
         subst hj0; rfl)
      | (have hj0 : j = 4 := by
          have hc : listIndex? 'e' columnsL = some 4 := by decide
          rw [hc] at hj; exact (Option.some.injEq _ _ |>.mp hj).symm
         subst hj0; rfl)
      | (have hj0 : j = 5 := by
          have hc : listIndex? 'f' columnsL = some 5 := by decide
          rw [hc] at hj; exact (Option.some.injEq _ _ |>.mp hj).symm
         subst hj0; rfl)
      | (have hj0 : j = 6 := by
          have hc : listIndex? 'g' columnsL = some 6 := by decide
          rw [hc] at hj; exact (Option.some.injEq _ _ |>.mp hj).symm
         subst hj0; rfl)
      | (have hj0 : j = 7 := by
          have hc : listIndex? 'h' columnsL = some 7 := by decide
          rw [hc] at hj; exact (Option.some.injEq _ _ |>.mp hj).symm
         subst hj0; rfl)
      | (have hj0 : j = 8 := by
          have hc : listIndex? 'i' columnsL = some 8 := by decide
          rw [hc] at hj; exact (Option.some.injEq _ _ |>.mp hj).symm
         subst hj0; rfl))

/-- Characterization of the all/filter/take/drop combination used by the
flying-general scan. -/
theorem all_filter_take_drop {α : Type} (l : List α) (a b : Nat) (P Q : α → Bool) :
    ((((l.drop a).take b).filter P).all Q = true) ↔
      (∀ n x, n < b → l[a + n]? = some x → P x = true → Q x = true) := by
  rw [List.all_eq_true]
  constructor
  · intro h n x hn hget hP
    have hmem : x ∈ (l.drop a).take b := by
      rw [List.mem_iff_getElem?]
      refine ⟨n, ?_⟩
      rw [List.getElem?_take, if_pos hn, List.getElem?_drop]
      exact hget
    exact h x (List.mem_filter.mpr ⟨hmem, hP⟩)
  · intro h x hx
    rw [List.mem_filter] at hx
    obtain ⟨hmem, hP⟩ := hx
    rw [List.mem_iff_getElem?] at hmem
    obtain ⟨n, hget⟩ := hmem
    have hn : n < b := by
      by_contra hnb
      rw [List.getElem?_take, if_neg hnb] at hget
      cases hget
    rw [List.getElem?_take, if_pos hn, List.getElem?_drop] at hget
    exact h n x hn hget hP

/-- Modelled from the spec's words (the comparison side of C3): the board
squares of one file strictly between two ranks. -/
def between_on_file (f : Char) (rA rB : Int) : List Str :=
  (List.range 10).filterMap (fun (k : Nat) =>
    if min rA rB < (k : Int) + 1 ∧ (k : Int) + 1 < max rA rB then
      some (f :: (toString ((k : Int) + 1)).toList)
    else none)

/-- Membership in the strictly-between square list. -/
theorem mem_between_on_file {f : Char} {rA rB : Int} {q : Str} :
    q ∈ between_on_file f rA rB ↔
      ∃ k : Nat, k < 10 ∧ min rA rB < (k : Int) + 1 ∧ (k : Int) + 1 < max rA rB ∧
        q = f :: (toString ((k : Int) + 1)).toList := by
  unfold between_on_file
  rw [List.mem_filterMap]
  constructor
  · intro ⟨k, hk, he⟩
    have hklt := List.mem_range.mp hk
    by_cases hc : min rA rB < (k : Int) + 1 ∧ (k : Int) + 1 < max rA rB
    · rw [if_pos hc] at he
      exact ⟨k, hklt, hc.1, hc.2, ((Option.some.injEq _ _).mp he).symm⟩
    · rw [if_neg hc] at he; cases he
  · intro ⟨k, hk, h1, h2, he⟩
    refine ⟨k, List.mem_range.mpr hk, ?_⟩
    rw [if_pos ⟨h1, h2⟩, he]

/-- getElem? of a list at the index just set. -/
theorem getElem?_set_at {α : Type} (l : List α) (i : Nat) (v : α)
    (h : i < l.length) : (l.set i v)[i]? = some v := by
  rw [List.getElem?_set_self', List.getElem?_eq_getElem h]
  rfl

/-- The flying-general scan succeeds (everything between the two General
squares reads as empty or General-initialed) exactly when every registry
piece strictly between them on the shared file is General-initialed. -/
theorem general_flying_blocked_iff (pieces : List Piece) (pos2 egpos : Str)
    (hnd : (pieces.map Piece.pos).Nodup)
    (hlabel : ∀ p ∈ pieces, p.label ≠ emptyL)
    (hv2 : is_valid_pos pos2 = true) (hveg : is_valid_pos egpos = true)
    (hfile : posFile egpos = posFile pos2)
    (hegG : ∀ p, get_piece_by_pos pieces egpos = some p →
      p.label.headD ' ' = 'G') :
    (general_flying_blocked 'G' pos2 egpos (update_layout pieces) = true ↔
      ∀ q ∈ between_on_file (posFile pos2) (posRank pos2) (posRank egpos),
        ∀ p, get_piece_by_pos pieces q = some p → p.label.headD ' ' = 'G') := by
  obtain ⟨i2, j2, hco2, hrow2, hcol2, hidx2r, hidx2c, hshape2⟩ := valid_pos_coords hv2
  obtain ⟨ie, je, hcoe, hrowe, hcole, hidxer, hidxec, hshapee⟩ := valid_pos_coords hveg
  obtain ⟨hts2, hpi2⟩ := rowsL_toString hrow2
  obtain ⟨htse, hpie⟩ := rowsL_toString hrowe
  have hr2 : posRank pos2 = (i2 : Int) + 1 := by unfold posRank; rw [hpi2]; rfl
  have hre : posRank egpos = (ie : Int) + 1 := by unfold posRank; rw [hpie]; rfl
  have hi2lt : i2 < 10 := by
    have h1 := (List.getElem?_eq_some.mp hrow2).1
    simpa using h1
  have hielt : ie < 10 := by
    have h1 := (List.getElem?_eq_some.mp hrowe).1
    simpa using h1
  have hcell : ∀ m : Nat, m < 10 →
      (((update_layout pieces)[m]?.getD [])[j2]?).getD emptyL =
        (match get_piece_by_pos pieces (posFile pos2 :: rowsL[m]?.getD []) with
         | some p => p.label
         | none => emptyL) := by
    intro m hm
    have hlen : m < rowsL.length := by
      have h10 : rowsL.length = 10 := by decide
      omega
    have hrm : rowsL[m]? = some (rowsL[m]?.getD []) := by
      rw [List.getElem?_eq_getElem hlen]
      rfl
    rw [update_layout_cell pieces hrm hcol2, lookup_last_eq_first hnd]
    rfl
  -- abbreviations
  have hq2 : posFile pos2 :: rowsL[i2]?.getD [] = pos2 := by
    rw [hrow2]
    exact hshape2.symm
  have hqe : posFile pos2 :: rowsL[ie]?.getD [] = egpos := by
    rw [hrowe]
    rw [← hfile]
    exact hshapee.symm
  have hcolfull := get_column_full (update_layout pieces) hidx2c
  simp only [general_flying_blocked]
  rw [hcolfull]
  simp only [Option.getD_some]
  rw [hr2, hre]
  have hsub1 : ((i2 : Int) + 1 - 1).toNat = i2 := by omega
  have hlo : (min ((i2 : Int) + 1 - 1) ((ie : Int) + 1 - 1)).toNat = min i2 ie := by
    omega
  have hhi : (max ((i2 : Int) + 1) ((ie : Int) + 1)).toNat = max i2 ie + 1 := by
    omega
  rw [hsub1, hlo, hhi]
  rw [all_filter_take_drop]
  have hlen10 : ((List.range 10).map
      (fun i => (((update_layout pieces)[i]?.getD [])[j2]?).getD emptyL)).length = 10 := by
    simp
  constructor
  · -- scan blocked → every strictly-between piece is a General
    intro hall q hq p hp
    rw [mem_between_on_file] at hq
    obtain ⟨k, hk10, hk1, hk2, hqe2⟩ := hq
    have hk1n : min i2 ie < k := by omega
    have hk2n : k < max i2 ie := by omega
    have hki2 : k ≠ i2 := by omega
    have hcolk : (((List.range 10).map
        (fun i => (((update_layout pieces)[i]?.getD [])[j2]?).getD emptyL)).set i2
          ['G'])[k]? = some ((((update_layout pieces)[k]?.getD [])[j2]?).getD emptyL) := by
      rw [List.getElem?_set_ne (fun h => hki2 h.symm)]
      rw [List.getElem?_map, List.getElem?_range hk10]
      rfl
    -- the position q is the k-th square of the file
    have hqk : q = posFile pos2 :: rowsL[k]?.getD [] := by
      have hlenk : k < rowsL.length := by
        have h10 : rowsL.length = 10 := by decide
        omega
      have hrk : rowsL[k]? = some (rowsL[k]?.getD []) := by
        rw [List.getElem?_eq_getElem hlenk]
        rfl
      obtain ⟨htsk, _⟩ := rowsL_toString hrk
      rw [hqe2, htsk]
    have hn : k - min i2 ie < max i2 ie + 1 - min i2 ie := by omega
    have hidx : min i2 ie + (k - min i2 ie) = k := by omega
    have hres := hall (k - min i2 ie)
      ((((update_layout pieces)[k]?.getD [])[j2]?).getD emptyL) hn
      (by rw [hidx]; exact hcolk)
    rw [hcell k hk10] at hres
    rw [← hqk] at hres
    rw [hp] at hres
    have hlabne : p.label ≠ emptyL := by
      apply hlabel
      exact List.mem_of_find?_eq_some hp
    simpa [hlabne] using hres
  · -- every strictly-between piece is a General → scan blocked
    intro hspec n x hn hget hnotempty
    rw [decide_eq_true_eq] at hnotempty
    rw [decide_eq_true_eq]
    have hm10 : min i2 ie + n < 10 := by omega
    by_cases hmi2 : min i2 ie + n = i2
    · rw [hmi2] at hget
      rw [getElem?_set_at _ _ _ (by rw [hlen10]; exact hi2lt)] at hget
      cases hget
      simp
    · rw [List.getElem?_set_ne (fun h => hmi2 h.symm)] at hget
      rw [List.getElem?_map, List.getElem?_range hm10] at hget
      have hx : x = (((update_layout pieces)[min i2 ie + n]?.getD [])[j2]?).getD emptyL := by
        have := hget
        simp only [Option.map_some'] at this
        exact ((Option.some.injEq _ _).mp this).symm
      rw [hcell (min i2 ie + n) hm10] at hx
      by_cases hmie : min i2 ie + n = ie
      · rw [hmie] at hx
        rw [hqe] at hx
        cases hpe : get_piece_by_pos pieces egpos with
        | none => rw [hpe] at hx; exact absurd hx hnotempty
        | some pe =>
          rw [hpe] at hx
          rw [hx]
          exact hegG pe hpe
      · cases hpq : get_piece_by_pos pieces (posFile pos2 :: rowsL[min i2 ie + n]?.getD []) with
        | none => rw [hpq] at hx; exact absurd hx hnotempty
        | some pq =>
          rw [hpq] at hx
          rw [hx]
          apply hspec (posFile pos2 :: rowsL[min i2 ie + n]?.getD [])
          · rw [mem_between_on_file]
            refine ⟨min i2 ie + n, hm10, by omega, by omega, ?_⟩
            have hlenm : min i2 ie + n < rowsL.length := by
              have h10 : rowsL.length = 10 := by decide
              omega
            have hrm : rowsL[min i2 ie + n]? = some (rowsL[min i2 ie + n]?.getD []) := by
              rw [List.getElem?_eq_getElem hlenm]
              rfl
            obtain ⟨htsm, _⟩ := rowsL_toString hrm
            rw [htsm]
          · exact hpq

/-- C3: for every General move attempt of exactly one orthogonal square into
the mover's own palace (in a state with distinct positions and a consistent
board), the piece-specific validation returns False exactly when, after the
move, both Generals would occupy the same file with no intervening
non-General piece between them, and True otherwise.  (The mover's own square
still holds its General label during the scan, which the General-initial
filter ignores, matching the post-move reading.) -/
theorem C3_general_flying (pieces : List Piece) (pos1 pos2 : Str) (player : Char)
    (eg : Piece)
    (hnd : (pieces.map Piece.pos).Nodup)
    (hlabel : ∀ p ∈ pieces, p.label ≠ emptyL)
    (heg : get_piece_by_label pieces
      (if player = redC then "GB1".toList else "GR1".toList) = some eg)
    (hveg : is_valid_pos eg.pos = true)
    (hpal : is_in_palace pos2 player = true)
    (hstep : ((fileDiff pos1 pos2).natAbs = 0 ∧ (rankDiff pos1 pos2).natAbs = 1) ∨
      ((fileDiff pos1 pos2).natAbs = 1 ∧ (rankDiff pos1 pos2).natAbs = 0)) :
    (general_is_valid_move 'G' pos1 pos2 (update_layout pieces) pieces player = false ↔
      (posFile eg.pos = posFile pos2 ∧
        ∀ q ∈ between_on_file (posFile pos2) (posRank pos2) (posRank eg.pos),
          ∀ p, get_piece_by_pos pieces q = some p → p.label.headD ' ' = 'G')) := by
  have hv2 : is_valid_pos pos2 = true := is_in_palace_valid hpal
  have hegmem : eg ∈ pieces := List.mem_of_find?_eq_some heg
  have heglabel : eg.label = (if player = redC then "GB1".toList else "GR1".toList) := by
    have h1 := List.find?_some heg
    simpa using h1
  have hegG : ∀ p, get_piece_by_pos pieces eg.pos = some p →
      p.label.headD ' ' = 'G' := by
    intro p hp
    have hself := get_piece_by_pos_self hnd hegmem
    rw [hself] at hp
    cases hp
    rw [heglabel]
    by_cases hpl : player = redC
    · rw [if_pos hpl]; rfl
    · rw [if_neg hpl]; rfl
  have hred : general_is_valid_move 'G' pos1 pos2 (update_layout pieces) pieces player =
      (if posFile eg.pos = posFile pos2 then
        if general_flying_blocked 'G' pos2 eg.pos (update_layout pieces) then false
        else true
      else true) := by
    unfold general_is_valid_move
    rw [if_neg (by simp [hpal]), if_neg (not_not_intro hstep), heg]
  rw [hred]
  by_cases hfile : posFile eg.pos = posFile pos2
  · rw [if_pos hfile]
    have hiff := general_flying_blocked_iff pieces pos2 eg.pos hnd hlabel hv2 hveg
      hfile hegG
    constructor
    · intro hres
      refine ⟨hfile, ?_⟩
      by_cases hb : general_flying_blocked 'G' pos2 eg.pos (update_layout pieces) = true
      · exact hiff.mp hb
      · rw [if_neg hb] at hres; cases hres
    · intro ⟨_, hspec⟩
      rw [if_pos (hiff.mpr hspec)]
  · rw [if_neg hfile]
    simp [hfile]

set_option maxRecDepth 100000 in
set_option maxHeartbeats 4000000 in
/-- Witness for C3: with only the two Generals on the board, the red General
stepping from e1 to e2 onto the open e-file facing the black General at e10
is rejected by the flying-general rule. -/
theorem C3_general_flying_witness :
    general_is_valid_move 'G' "e1".toList "e2".toList
      (update_layout [⟨"GR1".toList, "e1".toList⟩, ⟨"GB1".toList, "e10".toList⟩])
      [⟨"GR1".toList, "e1".toList⟩, ⟨"GB1".toList, "e10".toList⟩] redC = false :=
  (C3_general_flying [⟨"GR1".toList, "e1".toList⟩, ⟨"GB1".toList, "e10".toList⟩]
    "e1".toList "e2".toList redC ⟨"GB1".toList, "e10".toList⟩
    (by decide) (by decide) (by decide) (by decide) (by decide) (by decide)).mpr
    ⟨rfl, by decide⟩

/-! Analysis helpers for the Cannon ray scan. -/

/-- Occupancy test the Cannon scan performs on a square. -/
def cellOccupied (layout : List (List Str)) (q : Str) : Bool :=
  get_value_at_pos layout q ≠ some emptyL

/-- Friendliness test the Cannon scan performs on an occupied square. -/
def cellFriendly (c : Char) (layout : List (List Str)) (q : Str) : Bool :=
  ((get_value_at_pos layout q).getD [])[1]? = some c

/-- The Cannon scan only ever returns squares of its input. -/
theorem cannon_filter_side_subset (c : Char) (layout : List (List Str)) :
    ∀ (pts : List Str) (leaped : Bool) (q : Str),
      q ∈ cannon_filter_side c layout leaped pts → q ∈ pts := by
  intro pts
  induction pts with
  | nil => intro leaped q h; cases h
  | cons p rest ih =>
    intro leaped q h
    unfold cannon_filter_side at h
    by_cases hocc : get_value_at_pos layout p ≠ some emptyL
    · rw [if_pos hocc] at h
      by_cases hl : leaped = false
      · rw [if_pos hl] at h
        rcases List.mem_append.mp h with h1 | h2
        · by_cases hf : ((get_value_at_pos layout p).getD [])[1]? = some c
          · rw [if_pos hf] at h1
            rw [List.mem_singleton.mp h1]
            exact List.mem_cons_self _ _
          · rw [if_neg hf] at h1; cases h1
        · exact List.mem_cons_of_mem _ (ih true q h2)
      · rw [if_neg hl] at h
        by_cases hf : ((get_value_at_pos layout p).getD [])[1]? ≠ some c
        · rw [if_pos hf] at h
          rw [List.mem_singleton.mp h]
          exact List.mem_cons_self _ _
        · rw [if_neg hf] at h; cases h
    · rw [if_neg hocc] at h
      by_cases hl : leaped = false
      · rw [if_pos hl] at h
        rcases List.mem_cons.mp h with h1 | h2
        · rw [h1]; exact List.mem_cons_self _ _
        · exact List.mem_cons_of_mem _ (ih leaped q h2)
      · rw [if_neg hl] at h
        exact List.mem_cons_of_mem _ (ih leaped q h)

/-- Membership characterization of the Cannon scan on a direction list split
around the queried square: reachable fresh squares are the empty ones before
any screen and the friendly screen itself, plus, after exactly one screen,
an occupied non-friendly square. -/
theorem cannon_filter_side_split (c : Char) (layout : List (List Str)) (q : Str) :
    ∀ (A : List Str), ∀ (B : List Str), q ∉ A → q ∉ B →
      ((q ∈ cannon_filter_side c layout false (A ++ q :: B) ↔
        ((A.countP (cellOccupied layout) = 0 ∧
          (cellOccupied layout q = false ∨ cellFriendly c layout q = true)) ∨
         (A.countP (cellOccupied layout) = 1 ∧ cellOccupied layout q = true ∧
          cellFriendly c layout q = false))) ∧
       (q ∈ cannon_filter_side c layout true (A ++ q :: B) ↔
        (A.countP (cellOccupied layout) = 0 ∧ cellOccupied layout q = true ∧
         cellFriendly c layout q = false))) := by
  intro A
  induction A with
  | nil =>
    intro B _ hqB
    have hsub : ∀ leaped, q ∉ cannon_filter_side c layout leaped B :=
      fun leaped h => hqB (cannon_filter_side_subset c layout B leaped q h)
    constructor
    · show q ∈ cannon_filter_side c layout false (q :: B) ↔ _
      unfold cannon_filter_side
      by_cases hocc : get_value_at_pos layout q ≠ some emptyL
      · rw [if_pos hocc, if_pos rfl]
        by_cases hf : ((get_value_at_pos layout q).getD [])[1]? = some c
        · rw [if_pos hf]
          simp [cellOccupied, cellFriendly, hocc, hf, hsub true]
        · rw [if_neg hf]
          simp [cellOccupied, cellFriendly, hocc, hf, hsub true]
      · rw [if_neg hocc, if_pos rfl]
        simp [cellOccupied, cellFriendly, hocc]
    · show q ∈ cannon_filter_side c layout true (q :: B) ↔ _
      unfold cannon_filter_side
      by_cases hocc : get_value_at_pos layout q ≠ some emptyL
      · rw [if_pos hocc, if_neg (by simp)]
        by_cases hf : ((get_value_at_pos layout q).getD [])[1]? ≠ some c
        · rw [if_pos hf]
          simp [cellOccupied, cellFriendly, hocc, hf]
        · rw [if_neg hf]
          simp only [List.not_mem_nil, false_iff]
          intro ⟨_, _, hfr⟩
          rw [cellFriendly] at hfr
          simp at hf
          rw [hf] at hfr
          simp at hfr
      · rw [if_neg hocc, if_neg (by simp)]
        simp only [cellOccupied]
        constructor
        · intro h
          exact absurd h (hsub true)
        · intro ⟨_, hoc, _⟩
          rw [decide_eq_true_eq] at hoc
          exact absurd hoc hocc
  | cons a A ih =>
    intro B hqA hqB
    have hqa : q ≠ a := fun h => hqA (h ▸ List.mem_cons_self a A)
    have hqA2 : q ∉ A := fun h => hqA (List.mem_cons_of_mem a h)
    have hih := ih B hqA2 hqB
    have hconc : (a :: A) ++ q :: B = a :: (A ++ q :: B) := rfl
    rw [hconc]
    constructor
    · show q ∈ cannon_filter_side c layout false (a :: (A ++ q :: B)) ↔ _
      unfold cannon_filter_side
      by_cases hocc : get_value_at_pos layout a ≠ some emptyL
      · rw [if_pos hocc, if_pos rfl]
        have hcnt : (a :: A).countP (cellOccupied layout) =
            A.countP (cellOccupied layout) + 1 := by
          rw [List.countP_cons]
          simp [cellOccupied, hocc]
        rw [List.mem_append]
        by_cases hf : ((get_value_at_pos layout a).getD [])[1]? = some c
        · rw [if_pos hf]
          simp only [List.mem_singleton, hqa, false_or]
          rw [hih.2, hcnt]
          constructor
          · intro ⟨h0, hoc, hfr⟩
            exact Or.inr ⟨by omega, hoc, hfr⟩
          · intro h
            rcases h with ⟨h0, _⟩ | ⟨h1, hoc, hfr⟩
            · omega
            · exact ⟨by omega, hoc, hfr⟩
        · rw [if_neg hf]
          simp only [List.not_mem_nil, false_or]
          rw [hih.2, hcnt]
          constructor
          · intro ⟨h0, hoc, hfr⟩
            exact Or.inr ⟨by omega, hoc, hfr⟩
          · intro h
            rcases h with ⟨h0, _⟩ | ⟨h1, hoc, hfr⟩
            · omega
            · exact ⟨by omega, hoc, hfr⟩
      · rw [if_neg hocc, if_pos rfl]
        have hcnt : (a :: A).countP (cellOccupied layout) =
            A.countP (cellOccupied layout) := by
          rw [List.countP_cons]
          simp [cellOccupied, hocc]
        rw [List.mem_cons]
        simp only [hqa, false_or]
        rw [hih.1, hcnt]
    · show q ∈ cannon_filter_side c layout true (a :: (A ++ q :: B)) ↔ _
      unfold cannon_filter_side
      by_cases hocc : get_value_at_pos layout a ≠ some emptyL
      · rw [if_pos hocc, if_neg (by simp)]
        have hcnt : (a :: A).countP (cellOccupied layout) =
            A.countP (cellOccupied layout) + 1 := by
          rw [List.countP_cons]
          simp [cellOccupied, hocc]
        constructor
        · intro h
          by_cases hf : ((get_value_at_pos layout a).getD [])[1]? ≠ some c
          · rw [if_pos hf] at h
            exact absurd (List.mem_singleton.mp h) hqa
          · rw [if_neg hf] at h
            cases h
        · intro ⟨h0, _, _⟩
          rw [hcnt] at h0
          omega
      · rw [if_neg hocc, if_neg (by simp)]
        have hcnt : (a :: A).countP (cellOccupied layout) =
            A.countP (cellOccupied layout) := by
          rw [List.countP_cons]
          simp [cellOccupied, hocc]
        rw [hih.2, hcnt]

/-- The row-position list with default bounds is the file letters consed on
the rank. -/
theorem get_row_positions_full {r : Str} (h : r ∈ rowsL) :
    get_row_positions r 'a' 'i' = some (columnsL.map (fun c => c :: r)) := by
  unfold get_row_positions
  rw [if_neg (not_not_intro ⟨by simpa using h, by decide, by decide⟩)]
  rfl

/-- The column-position list with default bounds is the rank strings under
the file letter. -/
theorem get_column_positions_full {f : Char} (h : f ∈ columnsL) :
    get_column_positions f "1".toList "10".toList =
      some (rowsL.map (fun r => f :: r)) := by
  unfold get_column_positions
  rw [if_neg (not_not_intro ⟨by simpa using h, by decide, by decide⟩)]
  rfl

/-- Index of a position inside its rank's row-position list. -/
theorem listIndex?_map_cons_tail {r : Str} {f : Char} :
    ∀ {l : List Char} {j : Nat}, listIndex? f l = some j →
      listIndex? (f :: r) (l.map (fun ch => ch :: r)) = some j := by
  intro l
  induction l with
  | nil => intro j h; simp [listIndex?] at h
  | cons b t ih =>
    intro j h
    by_cases hb : b = f
    · subst hb
      simp [listIndex?] at h
      subst h
      simp [listIndex?]
    · simp [listIndex?, hb] at h
      obtain ⟨k, hk, hkj⟩ := h
      subst hkj
      have hne : ¬ (b :: r) = (f :: r) := by
        intro he
        injection he with h1 h2
        exact hb h1
      simp only [List.map_cons, listIndex?, hne, if_neg]
      rw [ih hk]
      rfl

/-- Index of a position inside its file's column-position list. -/
theorem listIndex?_map_cons_head {f : Char} {r : Str} :
    ∀ {l : List Str} {i : Nat}, listIndex? r l = some i →
      listIndex? (f :: r) (l.map (fun s => f :: s)) = some i := by
  intro l
  induction l with
  | nil => intro i h; simp [listIndex?] at h
  | cons b t ih =>
    intro i h
    by_cases hb : b = r
    · subst hb
      simp [listIndex?] at h
      subst h
      simp [listIndex?]
    · simp [listIndex?, hb] at h
      obtain ⟨k, hk, hki⟩ := h
      subst hki
      have hne : ¬ (f :: b) = (f :: r) := by
        intro he
        exact hb (by injection he)
      simp only [List.map_cons, listIndex?, hne, if_neg]
      rw [ih hk]
      rfl

/-- A file letter consed on a rank string is a valid position. -/
theorem cons_valid {f : Char} {r : Str} (hf : f ∈ columnsL) (hr : r ∈ rowsL) :
    is_valid_pos (f :: r) = true := by
  have h1 := listIndex?_isSome_of_mem hr
  have h2 := listIndex?_isSome_of_mem hf
  unfold is_valid_pos get_coordinates_from_pos
  cases hi : listIndex? r rowsL with
  | none => rw [hi] at h1; cases h1
  | some i =>
    cases hj : listIndex? f columnsL with
    | none => rw [hj] at h2; cases h2
    | some j => simp [hi, hj]

/-- In a consistent board, the Cannon scan's occupancy test agrees with
registry occupancy. -/
theorem occupied_cell_iff (pieces : List Piece)
    (hnd : (pieces.map Piece.pos).Nodup)
    (hlabel : ∀ p ∈ pieces, p.label ≠ emptyL) {q : Str}
    (hq : is_valid_pos q = true) :
    cellOccupied (update_layout pieces) q = (get_piece_by_pos pieces q).isSome := by
  unfold cellOccupied
  rw [get_value_update_layout pieces hq, lookup_last_eq_first hnd]
  cases hp : get_piece_by_pos pieces q with
  | none => simp
  | some p =>
    have hpmem : p ∈ pieces := List.mem_of_find?_eq_some hp
    simp [hlabel p hpmem]

/-- In a consistent board, the Cannon scan's friendliness test reads the
occupying piece's color. -/
theorem friendly_cell_iff (pieces : List Piece) (c : Char)
    (hnd : (pieces.map Piece.pos).Nodup)
    (hlab2 : ∀ p ∈ pieces, p.label[1]? = some p.pcolor) {q : Str} {p : Piece}
    (hq : is_valid_pos q = true)
    (hp : get_piece_by_pos pieces q = some p) :
    cellFriendly c (update_layout pieces) q = (p.pcolor = c) := by
  unfold cellFriendly
  rw [get_value_update_layout pieces hq, lookup_last_eq_first hnd, hp]
  have hpmem : p ∈ pieces := List.mem_of_find?_eq_some hp
  simp only [Option.getD_some, hlab2 p hpmem]
  by_cases hc : p.pcolor = c
  · simp [hc]
  · simp [hc]

/-- Modelled from the spec (the comparison side of C4): the squares strictly
between two files on a shared rank. -/
def between_on_rank (r : Str) (fA fB : Char) : List Str :=
  (columnsL.filter (fun ch => decide (min fA fB < ch) && decide (ch < max fA fB))).map
    (fun ch => ch :: r)

/-- between_on_file factors through the rank-string list. -/
theorem between_on_file_eq_map (f : Char) (rA rB : Int) :
    between_on_file f rA rB =
      ((List.range 10).filterMap (fun (k : Nat) =>
        if min rA rB < (k : Int) + 1 ∧ (k : Int) + 1 < max rA rB then
          some ((toString ((k : Int) + 1)).toList)
        else none)).map (fun s => f :: s) := by
  unfold between_on_file
  rw [List.map_filterMap]
  apply List.filterMap_congr
  intro k _
  by_cases hc : min rA rB < (k : Int) + 1 ∧ (k : Int) + 1 < max rA rB
  · rw [if_pos hc, if_pos hc]
    rfl
  · rw [if_neg hc, if_neg hc]
    rfl

/-- Anything the outward scan-and-reassemble returns is the piece's own
square or a square of the direction array. -/
theorem filter_range_mem_input (scan : List Str → List Str)
    (hscan : ∀ l q, q ∈ scan l → q ∈ l)
    (pos q : Str) (arr : List Str)
    (h : q ∈ filter_range_by_closest scan pos arr) : q = pos ∨ q ∈ arr := by
  have h2 : q ∈ (scan ((arr.take ((listIndex? pos arr).getD 0)).reverse)).reverse ++
      [pos] ++ scan (arr.drop ((listIndex? pos arr).getD 0 + 1)) := h
  rcases List.mem_append.mp h2 with h1 | h1
  · rcases List.mem_append.mp h1 with h1a | h1b
    · right
      exact List.mem_of_mem_take
        (List.mem_reverse.mp (hscan _ _ (List.mem_reverse.mp h1a)))
    · left
      exact List.mem_singleton.mp h1b
  · right
    exact List.mem_of_mem_drop (hscan _ _ h1)

/-- The Cannon scan reaches a fresh square of its direction list exactly when
the registry-level count of occupied squares strictly before it matches the
screen rule: one screen for a capture, none for a quiet move. -/
theorem cannon_reach_registry (c : Char) (pieces : List Piece)
    (hnd : (pieces.map Piece.pos).Nodup)
    (hlabel : ∀ p ∈ pieces, p.label ≠ emptyL)
    (hlab2 : ∀ p ∈ pieces, p.label[1]? = some p.pcolor)
    {A B : List Str} {q : Str}
    (hvq : is_valid_pos q = true)
    (hAv : ∀ x ∈ A, is_valid_pos x = true)
    (hqA : q ∉ A) (hqB : q ∉ B)
    (hdest : ∀ p, get_piece_by_pos pieces q = some p → p.pcolor ≠ c) :
    (q ∈ cannon_filter_side c (update_layout pieces) false (A ++ q :: B) ↔
      A.countP (fun x => (get_piece_by_pos pieces x).isSome) =
        (if (get_piece_by_pos pieces q).isSome then 1 else 0)) := by
  rw [(cannon_filter_side_split c (update_layout pieces) q A B hqA hqB).1]
  have hcnt : A.countP (cellOccupied (update_layout pieces)) =
      A.countP (fun x => (get_piece_by_pos pieces x).isSome) :=
    List.countP_congr (fun x hx => by
      rw [occupied_cell_iff pieces hnd hlabel (hAv x hx)])
  rw [hcnt]
  cases hq : get_piece_by_pos pieces q with
  | none =>
    have hocc : cellOccupied (update_layout pieces) q = false := by
      rw [occupied_cell_iff pieces hnd hlabel hvq, hq]
      rfl
    have hif : (if (none : Option Piece).isSome = true then (1 : Nat) else 0) = 0 := by
      decide
    rw [hif]
    constructor
    · intro h
      rcases h with ⟨h0, _⟩ | ⟨_, hoc, _⟩
      · exact h0
      · rw [hocc] at hoc
        exact absurd hoc (by decide)
    · intro h0
      exact Or.inl ⟨h0, Or.inl hocc⟩
  | some p =>
    have hocc : cellOccupied (update_layout pieces) q = true := by
      rw [occupied_cell_iff pieces hnd hlabel hvq, hq]
      rfl
    have hfr : cellFriendly c (update_layout pieces) q = false := by
      have h := friendly_cell_iff pieces c hnd hlab2 hvq hq
      cases hb : cellFriendly c (update_layout pieces) q
      · rfl
      · exact absurd (h ▸ hb) (hdest p hq)
    have hif : (if (some p).isSome = true then (1 : Nat) else 0) = 1 := rfl
    rw [hif]
    constructor
    · intro h
      rcases h with ⟨_, hce | hcf⟩ | ⟨h1, _, _⟩
      · rw [hocc] at hce
        exact absurd hce (by decide)
      · rw [hfr] at hcf
        exact absurd hcf (by decide)
      · exact h1
    · intro h1
      exact Or.inr ⟨h1, hocc, hfr⟩

set_option maxRecDepth 10000 in
/-- Concrete decomposition of the file-letter list around a higher index,
with the strict-between slice written as a filter. -/
theorem columns_facts_lt : ∀ a ∈ List.range 9, ∀ b ∈ List.range 9, a < b →
    (columnsL.drop (a + 1) = ((columnsL.drop (a + 1)).take (b - a - 1)) ++
        (columnsL[b]?.getD ' ') :: columnsL.drop (b + 1)) ∧
    (columnsL[b]?.getD ' ') ∉ (columnsL.drop (a + 1)).take (b - a - 1) ∧
    (columnsL[b]?.getD ' ') ∉ columnsL.drop (b + 1) ∧
    (columnsL[b]?.getD ' ') ∉ columnsL.take a ∧
    ((columnsL.drop (a + 1)).take (b - a - 1) =
      columnsL.filter (fun ch =>
        decide (min (columnsL[a]?.getD ' ') (columnsL[b]?.getD ' ') < ch) &&
        decide (ch < max (columnsL[a]?.getD ' ') (columnsL[b]?.getD ' ')))) := by
  decide

set_option maxRecDepth 10000 in
/-- Concrete decomposition of the reversed file-letter prefix around a lower
index, with the strict-between slice written as a filter. -/
theorem columns_facts_gt : ∀ a ∈ List.range 9, ∀ b ∈ List.range 9, b < a →
    ((columnsL.take a).reverse = ((columnsL.drop (b + 1)).take (a - b - 1)).reverse ++
        (columnsL[b]?.getD ' ') :: (columnsL.take b).reverse) ∧
    (columnsL[b]?.getD ' ') ∉ (columnsL.drop (b + 1)).take (a - b - 1) ∧
    (columnsL[b]?.getD ' ') ∉ columnsL.take b ∧
    (columnsL[b]?.getD ' ') ∉ columnsL.drop (a + 1) ∧
    ((columnsL.drop (b + 1)).take (a - b - 1) =
      columnsL.filter (fun ch =>
        decide (min (columnsL[a]?.getD ' ') (columnsL[b]?.getD ' ') < ch) &&
        decide (ch < max (columnsL[a]?.getD ' ') (columnsL[b]?.getD ' ')))) := by
  decide

set_option maxRecDepth 10000 in
/-- Concrete decomposition of the rank-string list around a higher index,
with the strict-between slice written through the printed rank numbers. -/
theorem rows_facts_lt : ∀ a ∈ List.range 10, ∀ b ∈ List.range 10, a < b →
    (rowsL.drop (a + 1) = ((rowsL.drop (a + 1)).take (b - a - 1)) ++
        (rowsL[b]?.getD []) :: rowsL.drop (b + 1)) ∧
    (rowsL[b]?.getD []) ∉ (rowsL.drop (a + 1)).take (b - a - 1) ∧
    (rowsL[b]?.getD []) ∉ rowsL.drop (b + 1) ∧
    (rowsL[b]?.getD []) ∉ rowsL.take a ∧
    ((rowsL.drop (a + 1)).take (b - a - 1) =
      (List.range 10).filterMap (fun (k : Nat) =>
        if min ((a : Int) + 1) ((b : Int) + 1) < (k : Int) + 1 ∧
            (k : Int) + 1 < max ((a : Int) + 1) ((b : Int) + 1) then
          some ((toString ((k : Int) + 1)).toList)
        else none)) := by
  decide

set_option maxRecDepth 10000 in
/-- Concrete decomposition of the reversed rank-string prefix around a lower
index, with the strict-between slice written through the printed rank
numbers. -/
theorem rows_facts_gt : ∀ a ∈ List.range 10, ∀ b ∈ List.range 10, b < a →
    ((rowsL.take a).reverse = ((rowsL.drop (b + 1)).take (a - b - 1)).reverse ++
        (rowsL[b]?.getD []) :: (rowsL.take b).reverse) ∧
    (rowsL[b]?.getD []) ∉ (rowsL.drop (b + 1)).take (a - b - 1) ∧
    (rowsL[b]?.getD []) ∉ rowsL.take b ∧
    (rowsL[b]?.getD []) ∉ rowsL.drop (a + 1) ∧
    ((rowsL.drop (b + 1)).take (a - b - 1) =
      (List.range 10).filterMap (fun (k : Nat) =>
        if min ((a : Int) + 1) ((b : Int) + 1) < (k : Int) + 1 ∧
            (k : Int) + 1 < max ((a : Int) + 1) ((b : Int) + 1) then
          some ((toString ((k : Int) + 1)).toList)
        else none)) := by
  decide

/-- Cannon reachability along the shared rank of two aligned squares,
expressed through the registry count of occupied strictly-between squares. -/
theorem cannon_row_reach (pieces : List Piece) (c : Char) (pos1 pos2 : Str)
    (hnd : (pieces.map Piece.pos).Nodup)
    (hlabel : ∀ p ∈ pieces, p.label ≠ emptyL)
    (hlab2 : ∀ p ∈ pieces, p.label[1]? = some p.pcolor)
    (hv1 : is_valid_pos pos1 = true) (hv2 : is_valid_pos pos2 = true)
    (hne : pos1 ≠ pos2) (hrank : pos1.drop 1 = pos2.drop 1)
    (hdest : ∀ p, get_piece_by_pos pieces pos2 = some p → p.pcolor ≠ c) :
    (pos2 ∈ cannon_pos_range c (update_layout pieces) pos1 ↔
      (between_on_rank (pos1.drop 1) (posFile pos1) (posFile pos2)).countP
          (fun x => (get_piece_by_pos pieces x).isSome) =
        (if (get_piece_by_pos pieces pos2).isSome then 1 else 0)) := by
  obtain ⟨i1, j1, hco1, hr1, hc1, hir1, hic1, hshape1⟩ := valid_pos_coords hv1
  obtain ⟨i2, j2, hco2, hr2, hc2, hir2, hic2, hshape2⟩ := valid_pos_coords hv2
  have hr1mem : pos1.drop 1 ∈ rowsL := List.mem_iff_getElem?.mpr ⟨i1, hr1⟩
  have hf1mem : posFile pos1 ∈ columnsL := List.mem_iff_getElem?.mpr ⟨j1, hc1⟩
  have hfne : posFile pos1 ≠ posFile pos2 := by
    intro he
    apply hne
    rw [hshape1, hshape2, he, hrank]
  have hjne : j1 ≠ j2 := by
    intro he
    apply hfne
    rw [he] at hc1
    rw [hc1] at hc2
    exact (Option.some.injEq _ _).mp hc2
  have hg1 : columnsL[j1]?.getD ' ' = posFile pos1 := by rw [hc1]; rfl
  have hg2 : columnsL[j2]?.getD ' ' = posFile pos2 := by rw [hc2]; rfl
  have hj1lt : j1 < 9 := by
    have h := (List.getElem?_eq_some.mp hc1).1
    have hlen : columnsL.length = 9 := by decide
    omega
  have hj2lt : j2 < 9 := by
    have h := (List.getElem?_eq_some.mp hc2).1
    have hlen : columnsL.length = 9 := by decide
    omega
  have hrowfull := get_row_positions_full hr1mem
  have hcolfull := get_column_positions_full hf1mem
  have hP1row : listIndex? pos1 (columnsL.map (fun ch => ch :: pos1.drop 1)) =
      some j1 := by
    have h := @listIndex?_map_cons_tail (pos1.drop 1) (posFile pos1) columnsL j1 hic1
    rw [← hshape1] at h
    exact h
  have hcons2 : posFile pos2 :: pos1.drop 1 = pos2 := by
    rw [hrank, ← hshape2]
  have hdest2 : ∀ p, get_piece_by_pos pieces pos2 = some p → p.pcolor ≠ c := hdest
  unfold cannon_pos_range
  rw [hrowfull, hcolfull]
  simp only [Option.getD_some]
  have hcolnot : pos2 ∉ filter_range_by_closest
      (cannon_filter_side c (update_layout pieces) false) pos1
      (rowsL.map (fun r => posFile pos1 :: r)) := by
    intro h
    rcases filter_range_mem_input (cannon_filter_side c (update_layout pieces) false)
        (fun l q hm => cannon_filter_side_subset c (update_layout pieces) l false q hm)
        pos1 pos2 _ h with he | hm
    · exact hne he.symm
    · obtain ⟨s, _, hes⟩ := List.mem_map.mp hm
      rw [hshape2] at hes
      injection hes with hh _
      exact hfne hh
  have hrowarr : filter_range_by_closest
      (cannon_filter_side c (update_layout pieces) false) pos1
      (columnsL.map (fun ch => ch :: pos1.drop 1)) =
    (cannon_filter_side c (update_layout pieces) false
        (((columnsL.map (fun ch => ch :: pos1.drop 1)).take j1).reverse)).reverse ++
      [pos1] ++
      cannon_filter_side c (update_layout pieces) false
        ((columnsL.map (fun ch => ch :: pos1.drop 1)).drop (j1 + 1)) := by
    show (cannon_filter_side c (update_layout pieces) false
        (((columnsL.map (fun ch => ch :: pos1.drop 1)).take
          ((listIndex? pos1 (columnsL.map (fun ch => ch :: pos1.drop 1))).getD 0)).reverse)).reverse ++
      [pos1] ++
      cannon_filter_side c (update_layout pieces) false
        ((columnsL.map (fun ch => ch :: pos1.drop 1)).drop
          ((listIndex? pos1 (columnsL.map (fun ch => ch :: pos1.drop 1))).getD 0 + 1)) = _
    rw [hP1row]
    simp only [Option.getD_some]
  rw [hrowarr]
  rcases Nat.lt_or_gt_of_ne hjne with hlt | hgt
  · have hfacts := columns_facts_lt j1 (List.mem_range.mpr hj1lt) j2
      (List.mem_range.mpr hj2lt) hlt
    rw [hg1, hg2] at hfacts
    obtain ⟨hdec, hnmS, hnmD, hnmT, hslice⟩ := hfacts
    have hdropmap : (columnsL.map (fun ch => ch :: pos1.drop 1)).drop (j1 + 1) =
        (columnsL.drop (j1 + 1)).map (fun ch => ch :: pos1.drop 1) := by
      rw [← List.map_drop]
    rw [hdec] at hdropmap
    simp only [List.map_append, List.map_cons] at hdropmap
    rw [hcons2] at hdropmap
    have hnotleft : pos2 ∉ (cannon_filter_side c (update_layout pieces) false
        (((columnsL.map (fun ch => ch :: pos1.drop 1)).take j1).reverse)).reverse := by
      intro hm
      have h1 := cannon_filter_side_subset c (update_layout pieces) _ false pos2
        (List.mem_reverse.mp hm)
      have h2 : pos2 ∈ (columnsL.map (fun ch => ch :: pos1.drop 1)).take j1 :=
        List.mem_reverse.mp h1
      rw [← List.map_take] at h2
      obtain ⟨ch, hch, he⟩ := List.mem_map.mp h2
      rw [hshape2] at he
      injection he with hh _
      rw [hh] at hch
      exact hnmT hch
    have hAv : ∀ x ∈ ((columnsL.drop (j1 + 1)).take (j2 - j1 - 1)).map
        (fun ch => ch :: pos1.drop 1), is_valid_pos x = true := by
      intro x hx
      obtain ⟨ch, hch, he⟩ := List.mem_map.mp hx
      rw [← he]
      exact cons_valid (List.mem_of_mem_drop (List.mem_of_mem_take hch)) hr1mem
    have hqA : pos2 ∉ ((columnsL.drop (j1 + 1)).take (j2 - j1 - 1)).map
        (fun ch => ch :: pos1.drop 1) := by
      intro hm
      obtain ⟨ch, hch, he⟩ := List.mem_map.mp hm
      rw [hshape2] at he
      injection he with hh _
      rw [hh] at hch
      exact hnmS hch
    have hqB : pos2 ∉ (columnsL.drop (j2 + 1)).map (fun ch => ch :: pos1.drop 1) := by
      intro hm
      obtain ⟨ch, hch, he⟩ := List.mem_map.mp hm
      rw [hshape2] at he
      injection he with hh _
      rw [hh] at hch
      exact hnmD hch
    have hreach := cannon_reach_registry c pieces hnd hlabel hlab2 hv2 hAv hqA hqB hdest2
    have hAmap : ((columnsL.drop (j1 + 1)).take (j2 - j1 - 1)).map
        (fun ch => ch :: pos1.drop 1) =
        between_on_rank (pos1.drop 1) (posFile pos1) (posFile pos2) := by
      rw [hslice]
      rfl
    rw [hdropmap, ← hAmap, List.mem_append, List.mem_append, List.mem_append,
      List.mem_singleton]
    constructor
    · rintro (((h | h) | h) | h)
      · exact absurd h hnotleft
      · exact absurd h.symm hne
      · exact hreach.mp h
      · exact absurd h hcolnot
    · intro h
      exact Or.inl (Or.inr (hreach.mpr h))
  · have hfacts := columns_facts_gt j1 (List.mem_range.mpr hj1lt) j2
      (List.mem_range.mpr hj2lt) hgt
    rw [hg1, hg2] at hfacts
    obtain ⟨hdec, hnmS, hnmT, hnmD, hslice⟩ := hfacts
    have htakemap : ((columnsL.map (fun ch => ch :: pos1.drop 1)).take j1).reverse =
        ((columnsL.take j1).reverse).map (fun ch => ch :: pos1.drop 1) := by
      rw [← List.map_take, ← List.map_reverse]
    rw [hdec] at htakemap
    simp only [List.map_append, List.map_cons] at htakemap
    rw [hcons2] at htakemap
    have hnotright : pos2 ∉ cannon_filter_side c (update_layout pieces) false
        ((columnsL.map (fun ch => ch :: pos1.drop 1)).drop (j1 + 1)) := by
      intro hm
      have h1 := cannon_filter_side_subset c (update_layout pieces) _ false pos2 hm
      rw [← List.map_drop] at h1
      obtain ⟨ch, hch, he⟩ := List.mem_map.mp h1
      rw [hshape2] at he
      injection he with hh _
      rw [hh] at hch
      exact hnmD hch
    have hAv : ∀ x ∈ (((columnsL.drop (j2 + 1)).take (j1 - j2 - 1)).reverse).map
        (fun ch => ch :: pos1.drop 1), is_valid_pos x = true := by
      intro x hx
      obtain ⟨ch, hch, he⟩ := List.mem_map.mp hx
      rw [← he]
      exact cons_valid
        (List.mem_of_mem_drop (List.mem_of_mem_take (List.mem_reverse.mp hch))) hr1mem
    have hqA : pos2 ∉ (((columnsL.drop (j2 + 1)).take (j1 - j2 - 1)).reverse).map
        (fun ch => ch :: pos1.drop 1) := by
      intro hm
      obtain ⟨ch, hch, he⟩ := List.mem_map.mp hm
      rw [hshape2] at he
      injection he with hh _
      rw [hh] at hch
      exact hnmS (List.mem_reverse.mp hch)
    have hqB : pos2 ∉ ((columnsL.take j2).reverse).map (fun ch => ch :: pos1.drop 1) := by
      intro hm
      obtain ⟨ch, hch, he⟩ := List.mem_map.mp hm
      rw [hshape2] at he
      injection he with hh _
      rw [hh] at hch
      exact hnmT (List.mem_reverse.mp hch)
    have hreach := cannon_reach_registry c pieces hnd hlabel hlab2 hv2 hAv hqA hqB hdest2
    have hcntA : ((((columnsL.drop (j2 + 1)).take (j1 - j2 - 1)).reverse).map
        (fun ch => ch :: pos1.drop 1)).countP
          (fun x => (get_piece_by_pos pieces x).isSome) =
        (between_on_rank (pos1.drop 1) (posFile pos1) (posFile pos2)).countP
          (fun x => (get_piece_by_pos pieces x).isSome) := by
      rw [List.map_reverse]
      rw [List.countP_eq_length_filter, List.filter_reverse, List.length_reverse,
        ← List.countP_eq_length_filter]
      rw [hslice]
      rfl
    rw [htakemap, List.mem_append, List.mem_append, List.mem_append,
      List.mem_singleton, List.mem_reverse]
    rw [hcntA] at hreach
    constructor
    · rintro (((h | h) | h) | h)
      · exact hreach.mp h
      · exact absurd h.symm hne
      · exact absurd h hnotright
      · exact absurd h hcolnot
    · intro h
      exact Or.inl (Or.inl (Or.inl (hreach.mpr h)))

/-- Cannon reachability along the shared file of two aligned squares,
expressed through the registry count of occupied strictly-between squares. -/
theorem cannon_col_reach (pieces : List Piece) (c : Char) (pos1 pos2 : Str)
    (hnd : (pieces.map Piece.pos).Nodup)
    (hlabel : ∀ p ∈ pieces, p.label ≠ emptyL)
    (hlab2 : ∀ p ∈ pieces, p.label[1]? = some p.pcolor)
    (hv1 : is_valid_pos pos1 = true) (hv2 : is_valid_pos pos2 = true)
    (hne : pos1 ≠ pos2) (hfile : posFile pos1 = posFile pos2)
    (hdest : ∀ p, get_piece_by_pos pieces pos2 = some p → p.pcolor ≠ c) :
    (pos2 ∈ cannon_pos_range c (update_layout pieces) pos1 ↔
      (between_on_file (posFile pos1) (posRank pos1) (posRank pos2)).countP
          (fun x => (get_piece_by_pos pieces x).isSome) =
        (if (get_piece_by_pos pieces pos2).isSome then 1 else 0)) := by
  obtain ⟨i1, j1, hco1, hr1, hc1, hir1, hic1, hshape1⟩ := valid_pos_coords hv1
  obtain ⟨i2, j2, hco2, hr2, hc2, hir2, hic2, hshape2⟩ := valid_pos_coords hv2
  have hr1mem : pos1.drop 1 ∈ rowsL := List.mem_iff_getElem?.mpr ⟨i1, hr1⟩
  have hf1mem : posFile pos1 ∈ columnsL := List.mem_iff_getElem?.mpr ⟨j1, hc1⟩
  have htne : pos1.drop 1 ≠ pos2.drop 1 := by
    intro ht
    apply hne
    rw [hshape1, hshape2, hfile, ht]
  have hine : i1 ≠ i2 := by
    intro he
    apply htne
    rw [he] at hr1
    rw [hr1] at hr2
    exact (Option.some.injEq _ _).mp hr2
  have hg2 : rowsL[i2]?.getD [] = pos2.drop 1 := by rw [hr2]; rfl
  have hi1lt : i1 < 10 := by
    have h := (List.getElem?_eq_some.mp hr1).1
    have hlen : rowsL.length = 10 := by decide
    omega
  have hi2lt : i2 < 10 := by
    have h := (List.getElem?_eq_some.mp hr2).1
    have hlen : rowsL.length = 10 := by decide
    omega
  have hpr1 : posRank pos1 = (i1 : Int) + 1 := by
    unfold posRank
    rw [(rowsL_toString hr1).2]
    rfl
  have hpr2 : posRank pos2 = (i2 : Int) + 1 := by
    unfold posRank
    rw [(rowsL_toString hr2).2]
    rfl
  have hrowfull := get_row_positions_full hr1mem
  have hcolfull := get_column_positions_full hf1mem
  have hP1col : listIndex? pos1 (rowsL.map (fun r => posFile pos1 :: r)) =
      some i1 := by
    have h := @listIndex?_map_cons_head (posFile pos1) (pos1.drop 1) rowsL i1 hir1
    rw [← hshape1] at h
    exact h
  have hcons2 : posFile pos1 :: pos2.drop 1 = pos2 := by
    rw [hfile, ← hshape2]
  have hdest2 : ∀ p, get_piece_by_pos pieces pos2 = some p → p.pcolor ≠ c := hdest
  unfold cannon_pos_range
  rw [hrowfull, hcolfull]
  simp only [Option.getD_some]
  have hrownot : pos2 ∉ filter_range_by_closest
      (cannon_filter_side c (update_layout pieces) false) pos1
      (columnsL.map (fun ch => ch :: pos1.drop 1)) := by
    intro h
    rcases filter_range_mem_input (cannon_filter_side c (update_layout pieces) false)
        (fun l q hm => cannon_filter_side_subset c (update_layout pieces) l false q hm)
        pos1 pos2 _ h with he | hm
    · exact hne he.symm
    · obtain ⟨ch, _, hes⟩ := List.mem_map.mp hm
      apply htne
      have ht : (ch :: pos1.drop 1).drop 1 = pos2.drop 1 := by rw [hes]
      simpa using ht
  have hcolarr : filter_range_by_closest
      (cannon_filter_side c (update_layout pieces) false) pos1
      (rowsL.map (fun r => posFile pos1 :: r)) =
    (cannon_filter_side c (update_layout pieces) false
        (((rowsL.map (fun r => posFile pos1 :: r)).take i1).reverse)).reverse ++
      [pos1] ++
      cannon_filter_side c (update_layout pieces) false
        ((rowsL.map (fun r => posFile pos1 :: r)).drop (i1 + 1)) := by
    show (cannon_filter_side c (update_layout pieces) false
        (((rowsL.map (fun r => posFile pos1 :: r)).take
          ((listIndex? pos1 (rowsL.map (fun r => posFile pos1 :: r))).getD 0)).reverse)).reverse ++
      [pos1] ++
      cannon_filter_side c (update_layout pieces) false
        ((rowsL.map (fun r => posFile pos1 :: r)).drop
          ((listIndex? pos1 (rowsL.map (fun r => posFile pos1 :: r))).getD 0 + 1)) = _
    rw [hP1col]
    simp only [Option.getD_some]
  rw [hcolarr]
  rcases Nat.lt_or_gt_of_ne hine with hlt | hgt
  · have hfacts := rows_facts_lt i1 (List.mem_range.mpr hi1lt) i2
      (List.mem_range.mpr hi2lt) hlt
    rw [hg2] at hfacts
    obtain ⟨hdec, hnmS, hnmD, hnmT, hslice⟩ := hfacts
    have hdropmap : (rowsL.map (fun r => posFile pos1 :: r)).drop (i1 + 1) =
        (rowsL.drop (i1 + 1)).map (fun r => posFile pos1 :: r) := by
      rw [← List.map_drop]
    rw [hdec] at hdropmap
    simp only [List.map_append, List.map_cons] at hdropmap
    rw [hcons2] at hdropmap
    have hnotleft : pos2 ∉ (cannon_filter_side c (update_layout pieces) false
        (((rowsL.map (fun r => posFile pos1 :: r)).take i1).reverse)).reverse := by
      intro hm
      have h1 := cannon_filter_side_subset c (update_layout pieces) _ false pos2
        (List.mem_reverse.mp hm)
      have h2 : pos2 ∈ (rowsL.map (fun r => posFile pos1 :: r)).take i1 :=
        List.mem_reverse.mp h1
      rw [← List.map_take] at h2
      obtain ⟨s, hs, he⟩ := List.mem_map.mp h2
      rw [hshape2] at he
      injection he with _ ht
      rw [ht] at hs
      exact hnmT hs
    have hAv : ∀ x ∈ ((rowsL.drop (i1 + 1)).take (i2 - i1 - 1)).map
        (fun r => posFile pos1 :: r), is_valid_pos x = true := by
      intro x hx
      obtain ⟨s, hs, he⟩ := List.mem_map.mp hx
      rw [← he]
      exact cons_valid hf1mem (List.mem_of_mem_drop (List.mem_of_mem_take hs))
    have hqA : pos2 ∉ ((rowsL.drop (i1 + 1)).take (i2 - i1 - 1)).map
        (fun r => posFile pos1 :: r) := by
      intro hm
      obtain ⟨s, hs, he⟩ := List.mem_map.mp hm
      rw [hshape2] at he
      injection he with _ ht
      rw [ht] at hs
      exact hnmS hs
    have hqB : pos2 ∉ (rowsL.drop (i2 + 1)).map (fun r => posFile pos1 :: r) := by
      intro hm
      obtain ⟨s, hs, he⟩ := List.mem_map.mp hm
      rw [hshape2] at he
      injection he with _ ht
      rw [ht] at hs
      exact hnmD hs
    have hreach := cannon_reach_registry c pieces hnd hlabel hlab2 hv2 hAv hqA hqB hdest2
    have hAmap : ((rowsL.drop (i1 + 1)).take (i2 - i1 - 1)).map
        (fun r => posFile pos1 :: r) =
        between_on_file (posFile pos1) (posRank pos1) (posRank pos2) := by
      rw [hpr1, hpr2, between_on_file_eq_map, hslice]
    rw [hdropmap, ← hAmap, List.mem_append, List.mem_append, List.mem_append,
      List.mem_singleton]
    constructor
    · rintro (h | ((h | h) | h))
      · exact absurd h hrownot
      · exact absurd h hnotleft
      · exact absurd h.symm hne
      · exact hreach.mp h
    · intro h
      exact Or.inr (Or.inr (hreach.mpr h))
  · have hfacts := rows_facts_gt i1 (List.mem_range.mpr hi1lt) i2
      (List.mem_range.mpr hi2lt) hgt
    rw [hg2] at hfacts
    obtain ⟨hdec, hnmS, hnmT, hnmD, hslice⟩ := hfacts
    have htakemap : ((rowsL.map (fun r => posFile pos1 :: r)).take i1).reverse =
        ((rowsL.take i1).reverse).map (fun r => posFile pos1 :: r) := by
      rw [← List.map_take, ← List.map_reverse]
    rw [hdec] at htakemap
    simp only [List.map_append, List.map_cons] at htakemap
    rw [hcons2] at htakemap
    have hnotright : pos2 ∉ cannon_filter_side c (update_layout pieces) false
        ((rowsL.map (fun r => posFile pos1 :: r)).drop (i1 + 1)) := by
      intro hm
      have h1 := cannon_filter_side_subset c (update_layout pieces) _ false pos2 hm
      rw [← List.map_drop] at h1
      obtain ⟨s, hs, he⟩ := List.mem_map.mp h1
      rw [hshape2] at he
      injection he with _ ht
      rw [ht] at hs
      exact hnmD hs
    have hAv : ∀ x ∈ (((rowsL.drop (i2 + 1)).take (i1 - i2 - 1)).reverse).map
        (fun r => posFile pos1 :: r), is_valid_pos x = true := by
      intro x hx
      obtain ⟨s, hs, he⟩ := List.mem_map.mp hx
      rw [← he]
      exact cons_valid hf1mem
        (List.mem_of_mem_drop (List.mem_of_mem_take (List.mem_reverse.mp hs)))
    have hqA : pos2 ∉ (((rowsL.drop (i2 + 1)).take (i1 - i2 - 1)).reverse).map
        (fun r => posFile pos1 :: r) := by
      intro hm
      obtain ⟨s, hs, he⟩ := List.mem_map.mp hm
      rw [hshape2] at he
      injection he with _ ht
      rw [ht] at hs
      exact hnmS (List.mem_reverse.mp hs)
    have hqB : pos2 ∉ ((rowsL.take i2).reverse).map (fun r => posFile pos1 :: r) := by
      intro hm
      obtain ⟨s, hs, he⟩ := List.mem_map.mp hm
      rw [hshape2] at he
      injection he with _ ht
      rw [ht] at hs
      exact hnmT (List.mem_reverse.mp hs)
    have hreach := cannon_reach_registry c pieces hnd hlabel hlab2 hv2 hAv hqA hqB hdest2
    have hcntA : ((((rowsL.drop (i2 + 1)).take (i1 - i2 - 1)).reverse).map
        (fun r => posFile pos1 :: r)).countP
          (fun x => (get_piece_by_pos pieces x).isSome) =
        (between_on_file (posFile pos1) (posRank pos1) (posRank pos2)).countP
          (fun x => (get_piece_by_pos pieces x).isSome) := by
      rw [List.map_reverse]
      rw [List.countP_eq_length_filter, List.filter_reverse, List.length_reverse,
        ← List.countP_eq_length_filter]
      rw [hpr1, hpr2, between_on_file_eq_map, hslice]
    rw [htakemap, List.mem_append, List.mem_append, List.mem_append,
      List.mem_singleton, List.mem_reverse]
    rw [hcntA] at hreach
    constructor
    · rintro (h | ((h | h) | h))
      · exact absurd h hrownot
      · exact hreach.mp h
      · exact absurd h.symm hne
      · exact absurd h hnotright
    · intro h
      exact Or.inr (Or.inl (Or.inl (hreach.mpr h)))

/-- Modelled from the spec's words (the comparison side of C4): the squares
strictly between two distinct aligned positions, along their shared file if
the files agree and along their shared rank otherwise. -/
def between_squares (pos1 pos2 : Str) : List Str :=
  if posFile pos1 = posFile pos2 then
    between_on_file (posFile pos1) (posRank pos1) (posRank pos2)
  else between_on_rank (pos1.drop 1) (posFile pos1) (posFile pos2)

/-- C4: for a Cannon move candidate along its current rank or file that
passes the registry-level candidate checks (both squares on-board and
distinct, the consistency invariants of the registry, and no friendly piece
on the destination), the piece-specific validation accepts exactly when the
number of pieces of either color strictly between origin and destination is
one if the destination is occupied (a capture) and zero if it is empty. -/
theorem C4_cannon_screen (pieces : List Piece) (c : Char) (pos1 pos2 : Str)
    (hnd : (pieces.map Piece.pos).Nodup)
    (hlabel : ∀ p ∈ pieces, p.label ≠ emptyL)
    (hlab2 : ∀ p ∈ pieces, p.label[1]? = some p.pcolor)
    (hv1 : is_valid_pos pos1 = true) (hv2 : is_valid_pos pos2 = true)
    (hne : pos1 ≠ pos2)
    (hline : pos1.drop 1 = pos2.drop 1 ∨ posFile pos1 = posFile pos2)
    (hdest : ∀ p ∈ pieces, p.pos = pos2 → p.pcolor ≠ c) :
    (cannon_is_valid_move c (update_layout pieces) pos1 pos2 = true ↔
      (between_squares pos1 pos2).countP
          (fun x => (get_piece_by_pos pieces x).isSome) =
        (if (get_piece_by_pos pieces pos2).isSome then 1 else 0)) := by
  have hdest2 : ∀ p, get_piece_by_pos pieces pos2 = some p → p.pcolor ≠ c := by
    intro p hp
    have hpm : p ∈ pieces := List.mem_of_find?_eq_some hp
    have hps := List.find?_some hp
    exact hdest p hpm (by simpa using hps)
  unfold cannon_is_valid_move
  have hmem : ((cannon_pos_range c (update_layout pieces) pos1).contains pos2 = true) ↔
      pos2 ∈ cannon_pos_range c (update_layout pieces) pos1 := by
    simp
  rw [hmem]
  unfold between_squares
  by_cases hfile : posFile pos1 = posFile pos2
  · rw [if_pos hfile]
    exact cannon_col_reach pieces c pos1 pos2 hnd hlabel hlab2 hv1 hv2 hne hfile hdest2
  · rw [if_neg hfile]
    have hrank : pos1.drop 1 = pos2.drop 1 := by
      rcases hline with h | h
      · exact h
      · exact absurd h hfile
    exact cannon_row_reach pieces c pos1 pos2 hnd hlabel hlab2 hv1 hv2 hne hrank hdest2

/-- A board for the C4 witness: a Red cannon on b3, a Red soldier screen on
b5, a Black soldier target on b7. -/
def w4pieces : List Piece :=
  [⟨"NR1".toList, "b3".toList⟩, ⟨"SR1".toList, "b5".toList⟩,
   ⟨"SB1".toList, "b7".toList⟩]

set_option maxRecDepth 100000 in
set_option maxHeartbeats 1000000 in
/-- Witness for C4: on that board the capture b3-b7 over the single screen
is accepted by the Cannon validation. -/
theorem C4_cannon_screen_witness :
    cannon_is_valid_move 'R' (update_layout w4pieces) "b3".toList "b7".toList = true :=
  (C4_cannon_screen w4pieces 'R' "b3".toList "b7".toList (by decide) (by decide)
    (by decide) (by decide) (by decide) (by decide) (by decide) (by decide)).mpr
    (by decide)

/-! Analysis of the undo path of a rejected move (C1). -/

/-- When some projection of the entries is duplicate-free, the first-match
lookup along that projection depends only on the set of entries. -/
theorem find_first_congr {β : Type} [DecidableEq β] (f : Piece → β)
    {P1 P2 : List Piece}
    (hmem : ∀ x, x ∈ P1 ↔ x ∈ P2)
    (hnd1 : (P1.map f).Nodup) (b : β) :
    P1.find? (fun x => f x = b) = P2.find? (fun x => f x = b) := by
  cases h1 : P1.find? (fun x => f x = b) with
  | some p =>
    have hp1 : p ∈ P1 := List.mem_of_find?_eq_some h1
    have hps : f p = b := by simpa using List.find?_some h1
    have hsome : (P2.find? (fun x => f x = b)).isSome :=
      List.find?_isSome.mpr ⟨p, (hmem p).mp hp1, by simpa using hps⟩
    cases h2 : P2.find? (fun x => f x = b) with
    | none => rw [h2] at hsome; cases hsome
    | some p2 =>
      have hp2 : p2 ∈ P1 := (hmem p2).mpr (List.mem_of_find?_eq_some h2)
      have hps2 : f p2 = b := by simpa using List.find?_some h2
      rw [List.inj_on_of_nodup_map hnd1 hp1 hp2 (by rw [hps, hps2])]
  | none =>
    cases h2 : P2.find? (fun x => f x = b) with
    | none => rfl
    | some p2 =>
      have hp2 : p2 ∈ P1 := (hmem p2).mpr (List.mem_of_find?_eq_some h2)
      have hps2 : f p2 = b := by simpa using List.find?_some h2
      have := List.find?_eq_none.mp h1 p2 hp2
      simp at this
      exact absurd hps2 this

/-- With distinct positions, the position lookup is set-determined. -/
theorem get_piece_by_pos_congr {P1 P2 : List Piece}
    (hmem : ∀ x, x ∈ P1 ↔ x ∈ P2)
    (hnd1 : (P1.map Piece.pos).Nodup) (q : Str) :
    get_piece_by_pos P1 q = get_piece_by_pos P2 q :=
  find_first_congr Piece.pos hmem hnd1 q

/-- With distinct labels, the label lookup is set-determined. -/
theorem get_piece_by_label_congr {P1 P2 : List Piece}
    (hmem : ∀ x, x ∈ P1 ↔ x ∈ P2)
    (hnd1 : (P1.map Piece.label).Nodup) (lab : Str) :
    get_piece_by_label P1 lab = get_piece_by_label P2 lab :=
  find_first_congr Piece.label hmem hnd1 lab

/-- With distinct labels, deleting a member's label removes exactly that
member. -/
theorem erase_by_label_eq {cap : Piece} :
    ∀ {P : List Piece}, cap ∈ P → (P.map Piece.label).Nodup →
      ∃ A B2, P = A ++ cap :: B2 ∧ erase_by_label P cap.label = A ++ B2 := by
  intro P
  induction P with
  | nil => intro h _; cases h
  | cons p rest ih =>
    intro hmem hnd
    simp only [List.map_cons] at hnd
    have hnd2 := List.nodup_cons.mp hnd
    by_cases hl : p.label = cap.label
    · have hp : p = cap := by
        rcases List.mem_cons.mp hmem with he | hm
        · exact he.symm
        · exfalso
          have hin : cap.label ∈ rest.map Piece.label :=
            List.mem_map.mpr ⟨cap, hm, rfl⟩
          exact hnd2.1 (hl ▸ hin)
      refine ⟨[], rest, by simp [hp], ?_⟩
      unfold erase_by_label
      rw [if_pos hl]
      rfl
    · have hm : cap ∈ rest := by
        rcases List.mem_cons.mp hmem with he | hm2
        · exact absurd (congrArg Piece.label he).symm hl
        · exact hm2
      obtain ⟨A, B2, hPe, hEe⟩ := ih hm hnd2.2
      refine ⟨p :: A, B2, by simp [hPe], ?_⟩
      unfold erase_by_label
      rw [if_neg hl, hEe]
      rfl

/-- Moving the piece at pos1 to a square empty in the registry and back
restores the registry exactly. -/
theorem move_piece_back : ∀ (P : List Piece) (pos1 pos2 : Str),
    (∀ p ∈ P, p.pos ≠ pos2) →
    move_piece (move_piece P pos1 pos2) pos2 pos1 = P := by
  intro P
  induction P with
  | nil => intro pos1 pos2 _; rfl
  | cons p rest ih =>
    intro pos1 pos2 hemp
    have hp2 : p.pos ≠ pos2 := hemp p (List.mem_cons_self p rest)
    cases p with
    | mk lab pp =>
      by_cases h1 : pp = pos1
      · simp only [move_piece]
        rw [if_pos h1]
        simp [move_piece, h1]
      · simp only [move_piece]
        rw [if_neg h1]
        simp only [move_piece]
        rw [if_neg hp2, ih pos1 pos2 (fun q hq => hemp q (List.mem_cons_of_mem _ hq))]

/-- The full move validation reads the registry only through the two
first-match lookups. -/
theorem pieces_is_valid_move_congr (layout : List (List Str)) {P1 P2 : List Piece}
    (player : Char) (pos1 pos2 : Str)
    (hpos : ∀ q, get_piece_by_pos P1 q = get_piece_by_pos P2 q)
    (hlab : ∀ lab, get_piece_by_label P1 lab = get_piece_by_label P2 lab) :
    pieces_is_valid_move pos1 pos2 layout P1 player =
      pieces_is_valid_move pos1 pos2 layout P2 player := by
  simp only [pieces_is_valid_move, piece_is_valid_move, general_is_valid_move,
    elephant_is_valid_move, horse_is_valid_move, hpos, hlab]

/-- A piece's recomputed attack range reads the registry only through the two
first-match lookups. -/
theorem piece_attack_range_congr (layout : List (List Str)) {P1 P2 : List Piece}
    (p : Piece)
    (hpos : ∀ q, get_piece_by_pos P1 q = get_piece_by_pos P2 q)
    (hlab : ∀ lab, get_piece_by_label P1 lab = get_piece_by_label P2 lab) :
    piece_attack_range layout P1 p = piece_attack_range layout P2 p := by
  have hmro : ∀ offsets, map_range_from_offsets layout P1 p offsets =
      map_range_from_offsets layout P2 p offsets := by
    intro offsets
    unfold map_range_from_offsets
    apply List.filter_congr
    intro d _
    rw [pieces_is_valid_move_congr layout p.pcolor p.pos d hpos hlab]
  simp only [piece_attack_range, hmro]

/-- The attacker list an attack map stores under one square. -/
def map_lookup (m : AttackMap) (sq : Str) : List Str :=
  ((m.find? (fun e => e.1 = sq)).map Prod.snd).getD []

/-- Equality of two attack maps as per-square attacker sets. -/
def same_attacks (m1 m2 : AttackMap) : Prop :=
  ∀ sq lab, lab ∈ map_lookup m1 sq ↔ lab ∈ map_lookup m2 sq

/-- find? looks past a prefix in which it fails. -/
theorem find_append_right {p : Str × List Str → Bool} :
    ∀ {l1 : List (Str × List Str)} (l2 : List (Str × List Str)),
      l1.find? p = none → (l1 ++ l2).find? p = l2.find? p := by
  intro l1
  induction l1 with
  | nil => intro l2 _; rfl
  | cons e rest ih =>
    intro l2 h
    by_cases hp : p e = true
    · rw [List.find?_cons_of_pos _ hp] at h
      cases h
    · rw [List.find?_cons_of_neg _ hp] at h
      rw [List.cons_append, List.find?_cons_of_neg _ hp]
      exact ih l2 h

/-- find? answers from the prefix in which it succeeds. -/
theorem find_append_left {p : Str × List Str → Bool} {e : Str × List Str} :
    ∀ {l1 : List (Str × List Str)} (l2 : List (Str × List Str)),
      l1.find? p = some e → (l1 ++ l2).find? p = some e := by
  intro l1
  induction l1 with
  | nil => intro l2 h; cases h
  | cons a rest ih =>
    intro l2 h
    by_cases hp : p a = true
    · rw [List.find?_cons_of_pos _ hp] at h
      rw [List.cons_append, List.find?_cons_of_pos _ hp]
      exact h
    · rw [List.find?_cons_of_neg _ hp] at h
      rw [List.cons_append, List.find?_cons_of_neg _ hp]
      exact ih l2 h

/-- find? by key commutes with a key-preserving entry rewrite. -/
theorem find_key_map (f : Str × List Str → Str × List Str)
    (hf : ∀ e, (f e).1 = e.1) (sq : Str) :
    ∀ m : AttackMap, (m.map f).find? (fun e => e.1 = sq) =
      (m.find? (fun e => e.1 = sq)).map f := by
  intro m
  induction m with
  | nil => rfl
  | cons e rest ih =>
    rw [List.map_cons]
    by_cases he : e.1 = sq
    · rw [List.find?_cons_of_pos _ (by simp only [decide_eq_true_eq]; rw [hf e]; exact he),
        List.find?_cons_of_pos _ (by simpa using he)]
      rfl
    · rw [List.find?_cons_of_neg _ (by simp only [decide_eq_true_eq]; rw [hf e]; exact he),
        List.find?_cons_of_neg _ (by simpa using he), ih]

/-- Inserting under one square leaves every other square's attackers alone. -/
theorem map_lookup_add_attack_ne {sq sq2 : Str} (m : AttackMap) (lab : Str)
    (hne : sq2 ≠ sq) :
    map_lookup (add_attack m sq lab) sq2 = map_lookup m sq2 := by
  unfold add_attack map_lookup
  split
  · rw [find_key_map (fun e => if e.1 = sq then (e.1, e.2 ++ [lab]) else e)
      (fun e => by
        show (if e.1 = sq then (e.1, e.2 ++ [lab]) else e).1 = e.1
        split <;> rfl) sq2]
    cases hfind : m.find? (fun e => e.1 = sq2) with
    | none => rfl
    | some e =>
      have he2 : e.1 = sq2 := by simpa using List.find?_some hfind
      have hne2 : ¬ e.1 = sq := by rw [he2]; exact hne
      simp [hne2]
  · cases hfind : m.find? (fun e => e.1 = sq2) with
    | none =>
      rw [find_append_right _ hfind,
        List.find?_cons_of_neg _ (by simpa using fun h => hne h.symm)]
      rfl
    | some e =>
      rw [find_append_left _ hfind]

/-- Inserting under a square appends the new label to that square's
attackers. -/
theorem map_lookup_add_attack_eq (m : AttackMap) (sq lab : Str) :
    map_lookup (add_attack m sq lab) sq = map_lookup m sq ++ [lab] := by
  unfold add_attack map_lookup
  split
  · next hpresent =>
    rw [find_key_map (fun e => if e.1 = sq then (e.1, e.2 ++ [lab]) else e)
      (fun e => by
        show (if e.1 = sq then (e.1, e.2 ++ [lab]) else e).1 = e.1
        split <;> rfl) sq]
    cases hfind : m.find? (fun e => e.1 = sq) with
    | none => rw [hfind] at hpresent; cases hpresent
    | some e =>
      have he2 : e.1 = sq := by simpa using List.find?_some hfind
      simp [he2]
  · next habsent =>
    cases hfind : m.find? (fun e => e.1 = sq) with
    | some e => rw [hfind] at habsent; exact absurd rfl habsent
    | none =>
      rw [find_append_right _ hfind, List.find?_cons_of_pos _ (by simp)]
      rfl

/-- Membership under add_attack. -/
theorem mem_map_lookup_add_attack {m : AttackMap} {sq lab sq2 lab2 : Str} :
    lab2 ∈ map_lookup (add_attack m sq lab) sq2 ↔
      lab2 ∈ map_lookup m sq2 ∨ (sq2 = sq ∧ lab2 = lab) := by
  by_cases he : sq2 = sq
  · subst he
    rw [map_lookup_add_attack_eq]
    simp
  · rw [map_lookup_add_attack_ne m lab he]
    simp [he]

/-- Membership after folding one label over a square list. -/
theorem mem_map_lookup_fold (labp sq2 lab2 : Str) :
    ∀ (range : List Str) (m : AttackMap),
      (lab2 ∈ map_lookup (range.foldl (fun acc sq => add_attack acc sq labp) m) sq2 ↔
        lab2 ∈ map_lookup m sq2 ∨ (sq2 ∈ range ∧ lab2 = labp)) := by
  intro range
  induction range with
  | nil => intro m; simp
  | cons sq rest ih =>
    intro m
    rw [List.foldl_cons, ih (add_attack m sq labp), mem_map_lookup_add_attack]
    simp only [List.mem_cons]
    constructor
    · rintro ((h | ⟨h1, h2⟩) | ⟨h1, h2⟩)
      · exact Or.inl h
      · exact Or.inr ⟨Or.inl h1, h2⟩
      · exact Or.inr ⟨Or.inr h1, h2⟩
    · rintro (h | ⟨h1 | h1, h2⟩)
      · exact Or.inl (Or.inl h)
      · exact Or.inl (Or.inr ⟨h1, h2⟩)
      · exact Or.inr ⟨h1, h2⟩

/-- Folding a pair function that touches only the first component. -/
theorem pair_foldl_fst {α β γ : Type} (f : α → γ → α) :
    ∀ (l : List γ) (a : α) (b : β),
      l.foldl (fun acc x => (f acc.1 x, acc.2)) (a, b) = (l.foldl f a, b) := by
  intro l
  induction l with
  | nil => intro a b; rfl
  | cons x xs ih =>
    intro a b
    rw [List.foldl_cons, List.foldl_cons]
    exact ih (f a x) b

/-- Folding a pair function that touches only the second component. -/
theorem pair_foldl_snd {α β γ : Type} (f : β → γ → β) :
    ∀ (l : List γ) (a : α) (b : β),
      l.foldl (fun acc x => (acc.1, f acc.2 x)) (a, b) = (a, l.foldl f b) := by
  intro l
  induction l with
  | nil => intro a b; rfl
  | cons x xs ih =>
    intro a b
    rw [List.foldl_cons, List.foldl_cons]
    exact ih a (f b x)

/-- A red piece's fold touches only the red map. -/
theorem fold_piece_attacks_red (mr mb : AttackMap) (p : Piece)
    (hred : p.pcolor = redC) (range : List Str) :
    fold_piece_attacks mr mb p range =
      (range.foldl (fun m sq => add_attack m sq p.label) mr, mb) := by
  rw [fold_piece_attacks_eq_foldl]
  simp only [hred, if_true]
  exact pair_foldl_fst (fun m sq => add_attack m sq p.label) range mr mb

/-- A black piece's fold touches only the black map. -/
theorem fold_piece_attacks_black (mr mb : AttackMap) (p : Piece)
    (hblack : p.pcolor = blackC) (range : List Str) :
    fold_piece_attacks mr mb p range =
      (mr, range.foldl (fun m sq => add_attack m sq p.label) mb) := by
  have hne : blackC ≠ redC := by decide
  rw [fold_piece_attacks_eq_foldl]
  simp only [hblack, if_neg hne, if_true]
  exact pair_foldl_snd (fun m sq => add_attack m sq p.label) range mr mb

/-- A piece of any other color folds to a no-op. -/
theorem fold_piece_attacks_other (mr mb : AttackMap) (p : Piece)
    (hr : ¬ p.pcolor = redC) (hb : ¬ p.pcolor = blackC) (range : List Str) :
    fold_piece_attacks mr mb p range = (mr, mb) := by
  rw [fold_piece_attacks_eq_foldl]
  simp only [if_neg hr, if_neg hb]
  induction range with
  | nil => rfl
  | cons x xs ih => rw [List.foldl_cons]; exact ih

/-- Membership characterization of the two attack maps built by the registry
fold: a label attacks a square iff some listed piece of that color carries
that label and covers that square. -/
theorem mem_update_attack_ranges (sq lab : Str) :
    ∀ (ranged : List (Piece × List Str)) (mr mb : AttackMap),
      ((lab ∈ map_lookup
          (ranged.foldl (fun acc pr => fold_piece_attacks acc.1 acc.2 pr.1 pr.2)
            (mr, mb)).1 sq ↔
        lab ∈ map_lookup mr sq ∨
          ∃ pr ∈ ranged, pr.1.pcolor = redC ∧ lab = pr.1.label ∧ sq ∈ pr.2) ∧
       (lab ∈ map_lookup
          (ranged.foldl (fun acc pr => fold_piece_attacks acc.1 acc.2 pr.1 pr.2)
            (mr, mb)).2 sq ↔
        lab ∈ map_lookup mb sq ∨
          ∃ pr ∈ ranged, pr.1.pcolor = blackC ∧ lab = pr.1.label ∧ sq ∈ pr.2)) := by
  intro ranged
  induction ranged with
  | nil =>
    intro mr mb
    simp
  | cons pr rest ih =>
    intro mr mb
    rw [List.foldl_cons]
    by_cases hred : pr.1.pcolor = redC
    · rw [fold_piece_attacks_red mr mb pr.1 hred pr.2]
      have hbne : pr.1.pcolor ≠ blackC := by rw [hred]; decide
      constructor
      · rw [(ih _ mb).1, mem_map_lookup_fold]
        constructor
        · rintro ((h | ⟨h1, h2⟩) | ⟨x, hx, hc, hl, hs⟩)
          · exact Or.inl h
          · exact Or.inr ⟨pr, List.mem_cons_self pr rest, hred, h2, h1⟩
          · exact Or.inr ⟨x, List.mem_cons_of_mem _ hx, hc, hl, hs⟩
        · rintro (h | ⟨x, hx, hc, hl, hs⟩)
          · exact Or.inl (Or.inl h)
          · rcases List.mem_cons.mp hx with he | hm
            · subst he
              exact Or.inl (Or.inr ⟨hs, hl⟩)
            · exact Or.inr ⟨x, hm, hc, hl, hs⟩
      · rw [(ih _ mb).2]
        constructor
        · rintro (h | ⟨x, hx, hc, hl, hs⟩)
          · exact Or.inl h
          · exact Or.inr ⟨x, List.mem_cons_of_mem _ hx, hc, hl, hs⟩
        · rintro (h | ⟨x, hx, hc, hl, hs⟩)
          · exact Or.inl h
          · rcases List.mem_cons.mp hx with he | hm
            · subst he
              exact absurd hc hbne
            · exact Or.inr ⟨x, hm, hc, hl, hs⟩
    · by_cases hblack : pr.1.pcolor = blackC
      · rw [fold_piece_attacks_black mr mb pr.1 hblack pr.2]
        constructor
        · rw [(ih mr _).1]
          constructor
          · rintro (h | ⟨x, hx, hc, hl, hs⟩)
            · exact Or.inl h
            · exact Or.inr ⟨x, List.mem_cons_of_mem _ hx, hc, hl, hs⟩
          · rintro (h | ⟨x, hx, hc, hl, hs⟩)
            · exact Or.inl h
            · rcases List.mem_cons.mp hx with he | hm
              · subst he
                exact absurd hc hred
              · exact Or.inr ⟨x, hm, hc, hl, hs⟩
        · rw [(ih mr _).2, mem_map_lookup_fold]
          constructor
          · rintro ((h | ⟨h1, h2⟩) | ⟨x, hx, hc, hl, hs⟩)
            · exact Or.inl h
            · exact Or.inr ⟨pr, List.mem_cons_self pr rest, hblack, h2, h1⟩
            · exact Or.inr ⟨x, List.mem_cons_of_mem _ hx, hc, hl, hs⟩
          · rintro (h | ⟨x, hx, hc, hl, hs⟩)
            · exact Or.inl (Or.inl h)
            · rcases List.mem_cons.mp hx with he | hm
              · subst he
                exact Or.inl (Or.inr ⟨hs, hl⟩)
              · exact Or.inr ⟨x, hm, hc, hl, hs⟩
      · rw [fold_piece_attacks_other mr mb pr.1 hred hblack pr.2]
        constructor
        · rw [(ih mr mb).1]
          constructor
          · rintro (h | ⟨x, hx, hc, hl, hs⟩)
            · exact Or.inl h
            · exact Or.inr ⟨x, List.mem_cons_of_mem _ hx, hc, hl, hs⟩
          · rintro (h | ⟨x, hx, hc, hl, hs⟩)
            · exact Or.inl h
            · rcases List.mem_cons.mp hx with he | hm
              · subst he
                exact absurd hc hred
              · exact Or.inr ⟨x, hm, hc, hl, hs⟩
        · rw [(ih mr mb).2]
          constructor
          · rintro (h | ⟨x, hx, hc, hl, hs⟩)
            · exact Or.inl h
            · exact Or.inr ⟨x, List.mem_cons_of_mem _ hx, hc, hl, hs⟩
          · rintro (h | ⟨x, hx, hc, hl, hs⟩)
            · exact Or.inl h
            · rcases List.mem_cons.mp hx with he | hm
              · subst he
                exact absurd hc hblack
              · exact Or.inr ⟨x, hm, hc, hl, hs⟩

/-- Membership characterization of the freshly recomputed maps. -/
theorem mem_computed_maps (layout : List (List Str)) (P : List Piece)
    (sq lab : Str) :
    (lab ∈ map_lookup (computed_maps layout P).1 sq ↔
      ∃ p ∈ P, p.pcolor = redC ∧ lab = p.label ∧
        sq ∈ piece_attack_range layout P p) ∧
    (lab ∈ map_lookup (computed_maps layout P).2 sq ↔
      ∃ p ∈ P, p.pcolor = blackC ∧ lab = p.label ∧
        sq ∈ piece_attack_range layout P p) := by
  unfold computed_maps update_attack_ranges
  have h := mem_update_attack_ranges sq lab
    (P.map (fun p => (p, piece_attack_range layout P p))) [] []
  have hnil : lab ∈ map_lookup ([] : AttackMap) sq ↔ False := by
    simp [map_lookup]
  constructor
  · rw [h.1, hnil]
    simp only [false_or]
    constructor
    · rintro ⟨x, hx, hc, hl, hs⟩
      obtain ⟨p, hp, he⟩ := List.mem_map.mp hx
      rw [← he] at hc hl hs
      exact ⟨p, hp, hc, hl, hs⟩
    · rintro ⟨p, hp, hc, hl, hs⟩
      exact ⟨(p, piece_attack_range layout P p),
        List.mem_map.mpr ⟨p, hp, rfl⟩, hc, hl, hs⟩
  · rw [h.2, hnil]
    simp only [false_or]
    constructor
    · rintro ⟨x, hx, hc, hl, hs⟩
      obtain ⟨p, hp, he⟩ := List.mem_map.mp hx
      rw [← he] at hc hl hs
      exact ⟨p, hp, hc, hl, hs⟩
    · rintro ⟨p, hp, hc, hl, hs⟩
      exact ⟨(p, piece_attack_range layout P p),
        List.mem_map.mpr ⟨p, hp, rfl⟩, hc, hl, hs⟩

/-- The board rebuild reads the registry only through the last-match
lookup. -/
theorem update_layout_congr {P1 P2 : List Piece}
    (h : ∀ pos, get_pieces_by_pos_lookup P1 pos = get_pieces_by_pos_lookup P2 pos) :
    update_layout P1 = update_layout P2 := by
  unfold update_layout
  apply List.map_congr_left
  intro i _
  apply List.map_congr_left
  intro j _
  cases hp : get_pos_from_coordinates i j with
  | none => rfl
  | some pos =>
    show (match get_pieces_by_pos_lookup P1 pos with
        | some p => p.label
        | none => emptyL) =
      (match get_pieces_by_pos_lookup P2 pos with
        | some p => p.label
        | none => emptyL)
    rw [h pos]

/-- Replacing the registry by one with the same pieces (where the original
has duplicate-free positions and labels) preserves both freshly recomputed
maps as per-square attacker sets. -/
theorem computed_maps_same_attacks (layout : List (List Str)) {P1 P2 : List Piece}
    (hmem : ∀ x, x ∈ P1 ↔ x ∈ P2)
    (hnd1 : (P1.map Piece.pos).Nodup)
    (hndl1 : (P1.map Piece.label).Nodup) :
    same_attacks (computed_maps layout P1).1 (computed_maps layout P2).1 ∧
    same_attacks (computed_maps layout P1).2 (computed_maps layout P2).2 := by
  have hpos := get_piece_by_pos_congr hmem hnd1
  have hlab := get_piece_by_label_congr hmem hndl1
  have hrange : ∀ p, piece_attack_range layout P1 p = piece_attack_range layout P2 p :=
    fun p => piece_attack_range_congr layout p hpos hlab
  constructor
  · intro sq lab
    rw [(mem_computed_maps layout P1 sq lab).1, (mem_computed_maps layout P2 sq lab).1]
    constructor
    · rintro ⟨p, hp, hc, hl, hs⟩
      exact ⟨p, (hmem p).mp hp, hc, hl, by rw [← hrange p]; exact hs⟩
    · rintro ⟨p, hp, hc, hl, hs⟩
      exact ⟨p, (hmem p).mpr hp, hc, hl, by rw [hrange p]; exact hs⟩
  · intro sq lab
    rw [(mem_computed_maps layout P1 sq lab).2, (mem_computed_maps layout P2 sq lab).2]
    constructor
    · rintro ⟨p, hp, hc, hl, hs⟩
      exact ⟨p, (hmem p).mp hp, hc, hl, by rw [← hrange p]; exact hs⟩
    · rintro ⟨p, hp, hc, hl, hs⟩
      exact ⟨p, (hmem p).mpr hp, hc, hl, by rw [hrange p]; exact hs⟩

/-- Restoring a buffered capture appends it to the registry and clears the
buffer. -/
theorem restore_captured_pieces (ps : PiecesSt) {cap : Piece}
    (h : ps.captured = some cap) :
    (restore_captured ps).pieces = ps.pieces ++ [cap] ∧
    (restore_captured ps).captured = none := by
  unfold restore_captured
  rw [h]
  exact ⟨rfl, rfl⟩

/-- Restoring an empty buffer is a no-op. -/
theorem restore_captured_id (ps : PiecesSt) (h : ps.captured = none) :
    restore_captured ps = ps := by
  unfold restore_captured
  rw [h]

/-- Structural facts about any undone state: the board is rebuilt from the
final registry, the maps are recomputed from that board, and the game-state
string and current player pass through. -/
theorem undo_move_shape (g1 : Game) (pos1 pos2 : Str) :
    (undo_move g1 pos1 pos2).board =
      update_layout (undo_move g1 pos1 pos2).ps.pieces ∧
    (undo_move g1 pos1 pos2).ps.redMap =
      (computed_maps (undo_move g1 pos1 pos2).board
        (undo_move g1 pos1 pos2).ps.pieces).1 ∧
    (undo_move g1 pos1 pos2).ps.blackMap =
      (computed_maps (undo_move g1 pos1 pos2).board
        (undo_move g1 pos1 pos2).ps.pieces).2 ∧
    (undo_move g1 pos1 pos2).currentGameState = g1.currentGameState ∧
    (undo_move g1 pos1 pos2).currentPlayer = g1.currentPlayer :=
  ⟨rfl, rfl, rfl, rfl, rfl⟩

/-- C1 (amended): a candidate-valid move attempt rejected because the mover's
own General would be in check makes make_move report failure with the
registry restored as a position mapping and a label mapping, the board
layout identical, and both attack maps equal as per-square attacker sets;
the captured-piece buffer, however, is unconditionally cleared to None
rather than restored, and the registry order (hence attacker-list order)
can change when the probed move was a capture. -/
theorem C1_selfcheck_undo (g : Game) (pos1 pos2 : Str)
    (hnd : (g.ps.pieces.map Piece.pos).Nodup)
    (hndl : (g.ps.pieces.map Piece.label).Nodup)
    (hunf : g.currentGameState = unfinishedS)
    (hvalid : pieces_is_valid_move pos1 pos2 g.board g.ps.pieces
      g.currentPlayer = true)
    (hcheck : pieces_is_in_check (speculative_state g pos1 pos2).ps
      [g.currentPlayer] = some (some true))
    (hboard : g.board = update_layout g.ps.pieces)
    (hred : g.ps.redMap = (computed_maps (update_layout g.ps.pieces) g.ps.pieces).1)
    (hblack : g.ps.blackMap =
      (computed_maps (update_layout g.ps.pieces) g.ps.pieces).2) :
    ((make_move g pos1 pos2 false).1 = false ∧
     (∀ q, get_piece_by_pos (make_move g pos1 pos2 false).2.ps.pieces q =
       get_piece_by_pos g.ps.pieces q) ∧
     (∀ lab, get_piece_by_label (make_move g pos1 pos2 false).2.ps.pieces lab =
       get_piece_by_label g.ps.pieces lab) ∧
     (make_move g pos1 pos2 false).2.board = g.board ∧
     same_attacks (make_move g pos1 pos2 false).2.ps.redMap g.ps.redMap ∧
     same_attacks (make_move g pos1 pos2 false).2.ps.blackMap g.ps.blackMap ∧
     (make_move g pos1 pos2 false).2.ps.captured = none ∧
     (make_move g pos1 pos2 false).2.currentGameState = g.currentGameState ∧
     (make_move g pos1 pos2 false).2.currentPlayer = g.currentPlayer) := by
  have hbase : make_move_base g pos1 pos2 =
      MoveOutcome.selfCheck (speculative_state g pos1 pos2) := by
    unfold make_move_base
    rw [if_pos hvalid, if_pos hcheck]
  have hmm : make_move g pos1 pos2 false =
      (false, undo_move (speculative_state g pos1 pos2) pos1 pos2) := by
    unfold make_move
    rw [if_neg (by decide), if_neg (not_not_intro hunf), hbase]
  rw [hmm]
  obtain ⟨hv1, hv2, hne12, ⟨p1, hp1, hp1c⟩, hfriend⟩ := is_valid_move_candidate hvalid
  have hshape := undo_move_shape (speculative_state g pos1 pos2) pos1 pos2
  cases hcap : get_piece_by_pos g.ps.pieces pos2 with
  | none =>
    have hempty : ∀ p ∈ g.ps.pieces, p.pos ≠ pos2 := by
      intro p hp
      have := List.find?_eq_none.mp hcap p hp
      simpa using this
    have hrc0 : remove_captured g.ps pos2 g.currentPlayer =
        { g.ps with captured := none } := by
      unfold remove_captured
      rw [hcap]
    have hspecp0 : (speculative_state g pos1 pos2).ps.pieces =
        move_piece g.ps.pieces pos1 pos2 := by
      show move_piece (remove_captured g.ps pos2 g.currentPlayer).pieces pos1 pos2 = _
      rw [hrc0]
    have hps1cap0 : ({ (speculative_state g pos1 pos2).ps with
        pieces := move_piece (speculative_state g pos1 pos2).ps.pieces pos2 pos1 }
          : PiecesSt).captured = none := by
      show (remove_captured g.ps pos2 g.currentPlayer).captured = none
      rw [hrc0]
    have hrest0 := restore_captured_id _ hps1cap0
    have hupieces : (undo_move (speculative_state g pos1 pos2) pos1 pos2).ps.pieces =
        g.ps.pieces := by
      show (restore_captured { (speculative_state g pos1 pos2).ps with
        pieces := move_piece (speculative_state g pos1 pos2).ps.pieces pos2 pos1 }).pieces = _
      rw [hrest0]
      show move_piece (speculative_state g pos1 pos2).ps.pieces pos2 pos1 = _
      rw [hspecp0]
      exact move_piece_back g.ps.pieces pos1 pos2 hempty
    have hucapt : (undo_move (speculative_state g pos1 pos2) pos1 pos2).ps.captured =
        none := by
      show (restore_captured { (speculative_state g pos1 pos2).ps with
        pieces := move_piece (speculative_state g pos1 pos2).ps.pieces pos2 pos1 }).captured = _
      rw [hrest0]
      show (remove_captured g.ps pos2 g.currentPlayer).captured = none
      rw [hrc0]
    have hubd : (undo_move (speculative_state g pos1 pos2) pos1 pos2).board =
        g.board := by
      rw [hshape.1, hupieces, hboard]
    refine ⟨rfl, ?_, ?_, hubd, ?_, ?_, hucapt, hshape.2.2.2.1, hshape.2.2.2.2⟩
    · intro q
      rw [hupieces]
    · intro lab
      rw [hupieces]
    · rw [hshape.2.1, hubd, hupieces, hboard, ← hred]
      intro sq lab
      exact Iff.rfl
    · rw [hshape.2.2.1, hubd, hupieces, hboard, ← hblack]
      intro sq lab
      exact Iff.rfl
  | some cap =>
    have hfr2 : cap.pcolor ≠ g.currentPlayer := hfriend cap hcap
    have hcapmem : cap ∈ g.ps.pieces := List.mem_of_find?_eq_some hcap
    have hcapp : cap.pos = pos2 := by simpa using List.find?_some hcap
    obtain ⟨A, B2, hPAB, hPE⟩ := erase_by_label_eq hcapmem hndl
    have hndp := hnd
    rw [hPAB] at hndp
    simp only [List.map_append, List.map_cons] at hndp
    have hndm := List.nodup_middle.mp hndp
    have hndc := List.nodup_cons.mp hndm
    have hempty0 : ∀ p ∈ A ++ B2, p.pos ≠ pos2 := by
      intro p hp hpe
      apply hndc.1
      have hmm2 : p.pos ∈ (A ++ B2).map Piece.pos := List.mem_map.mpr ⟨p, hp, rfl⟩
      rw [List.map_append] at hmm2
      rw [← hcapp] at hpe
      rw [hpe] at hmm2
      exact hmm2
    have hrc : remove_captured g.ps pos2 g.currentPlayer =
        { g.ps with
          captured := some cap
          pieces := erase_by_label g.ps.pieces cap.label } := by
      unfold remove_captured
      rw [hcap]
      show (if cap.pcolor ≠ g.currentPlayer then
          { g.ps with
            captured := some cap
            pieces := erase_by_label g.ps.pieces cap.label }
        else { g.ps with captured := none }) = _
      rw [if_pos hfr2]
    have hspecp : (speculative_state g pos1 pos2).ps.pieces =
        move_piece (erase_by_label g.ps.pieces cap.label) pos1 pos2 := by
      show move_piece (remove_captured g.ps pos2 g.currentPlayer).pieces pos1 pos2 = _
      rw [hrc]
    have hps1cap : ({ (speculative_state g pos1 pos2).ps with
        pieces := move_piece (speculative_state g pos1 pos2).ps.pieces pos2 pos1 }
          : PiecesSt).captured = some cap := by
      show (remove_captured g.ps pos2 g.currentPlayer).captured = some cap
      rw [hrc]
    have hupieces : (undo_move (speculative_state g pos1 pos2) pos1 pos2).ps.pieces =
        (A ++ B2) ++ [cap] := by
      show (restore_captured { (speculative_state g pos1 pos2).ps with
        pieces := move_piece (speculative_state g pos1 pos2).ps.pieces pos2 pos1 }).pieces = _
      rw [(restore_captured_pieces _ hps1cap).1]
      show move_piece (speculative_state g pos1 pos2).ps.pieces pos2 pos1 ++ [cap] = _
      rw [hspecp, hPE, move_piece_back (A ++ B2) pos1 pos2 hempty0]
    have hucapt : (undo_move (speculative_state g pos1 pos2) pos1 pos2).ps.captured =
        none := by
      show (restore_captured { (speculative_state g pos1 pos2).ps with
        pieces := move_piece (speculative_state g pos1 pos2).ps.pieces pos2 pos1 }).captured = _
      exact (restore_captured_pieces _ hps1cap).2
    have hperm : g.ps.pieces.Perm ((A ++ B2) ++ [cap]) := by
      rw [hPAB]
      exact List.Perm.trans List.perm_middle (List.perm_append_singleton cap (A ++ B2)).symm
    have hmem2 : ∀ x, x ∈ g.ps.pieces ↔ x ∈ (A ++ B2) ++ [cap] :=
      fun x => hperm.mem_iff
    have hndPf : (((A ++ B2) ++ [cap]).map Piece.pos).Nodup :=
      (hperm.map Piece.pos).nodup hnd
    have hndlPf : (((A ++ B2) ++ [cap]).map Piece.label).Nodup :=
      (hperm.map Piece.label).nodup hndl
    have hposc := get_piece_by_pos_congr hmem2 hnd
    have hlabc := get_piece_by_label_congr hmem2 hndl
    have hll : ∀ q, get_pieces_by_pos_lookup ((A ++ B2) ++ [cap]) q =
        get_pieces_by_pos_lookup g.ps.pieces q := by
      intro q
      rw [lookup_last_eq_first hndPf, lookup_last_eq_first hnd]
      exact (hposc q).symm
    have hlay : update_layout ((A ++ B2) ++ [cap]) = update_layout g.ps.pieces :=
      update_layout_congr hll
    have hubd : (undo_move (speculative_state g pos1 pos2) pos1 pos2).board =
        g.board := by
      rw [hshape.1, hupieces, hlay, hboard]
    have hsa := computed_maps_same_attacks (update_layout g.ps.pieces)
      (fun x => (hmem2 x).symm) hndPf hndlPf
    refine ⟨rfl, ?_, ?_, hubd, ?_, ?_, hucapt, hshape.2.2.2.1, hshape.2.2.2.2⟩
    · intro q
      rw [hupieces]
      exact (hposc q).symm
    · intro lab
      rw [hupieces]
      exact (hlabc lab).symm
    · rw [hshape.2.1, hubd, hupieces, hboard, ← hlay]
      rw [hred, hlay]
      exact hsa.1
    · rw [hshape.2.2.1, hubd, hupieces, hboard, ← hlay]
      rw [hblack, hlay]
      exact hsa.2

/-- A mid-game position for C1: Red general e1, Red advisor e2, a Black
horse on d1, a Black chariot on e9, Black general d10, with a stale
captured-piece buffer left from an earlier capture. -/
def w1pieces : List Piece :=
  [⟨"GR1".toList, "e1".toList⟩, ⟨"AR1".toList, "e2".toList⟩,
   ⟨"HB1".toList, "d1".toList⟩, ⟨"CB1".toList, "e9".toList⟩,
   ⟨"GB1".toList, "d10".toList⟩]

/-- The C1 game state: coherent board and maps, Red to move, buffer holding
a previously captured Black soldier. -/
def w1g : Game :=
  { board := update_layout w1pieces,
    ps := { pieces := w1pieces,
            redMap := (computed_maps (update_layout w1pieces) w1pieces).1,
            blackMap := (computed_maps (update_layout w1pieces) w1pieces).2,
            captured := some ⟨"SB5".toList, "a7".toList⟩ },
    currentGameState := unfinishedS,
    currentPlayer := 'R' }

set_option maxRecDepth 100000 in
set_option maxHeartbeats 8000000 in
/-- Counterexample to C1 as stated: the capture attempt e2-d1 passes
candidate validation, is rejected for self-check (chariot e9 pins the file),
and make_move returns False — but afterwards the captured-piece buffer has
been cleared instead of restored, the black attack map differs (the undone
capture re-enters the registry at the end, reordering its entries), and
the piece dict differs in order. -/
theorem C1_undo_not_identical :
    pieces_is_valid_move "e2".toList "d1".toList w1g.board w1g.ps.pieces
      w1g.currentPlayer = true ∧
    pieces_is_in_check (speculative_state w1g "e2".toList "d1".toList).ps
      [w1g.currentPlayer] = some (some true) ∧
    (make_move w1g "e2".toList "d1".toList false).1 = false ∧
    ¬ ((make_move w1g "e2".toList "d1".toList false).2.ps.captured =
      w1g.ps.captured) ∧
    ¬ ((make_move w1g "e2".toList "d1".toList false).2.ps.blackMap =
      w1g.ps.blackMap) ∧
    ¬ ((make_move w1g "e2".toList "d1".toList false).2.ps.pieces =
      w1g.ps.pieces) := by
  decide

set_option maxRecDepth 100000 in
set_option maxHeartbeats 100000000 in
/-- Witness for the amended C1 on the same position: the rejected attempt
reports failure, leaves the board identical, and clears the buffer. -/
theorem C1_selfcheck_undo_witness :
    (make_move w1g "e2".toList "d1".toList false).1 = false ∧
    (make_move w1g "e2".toList "d1".toList false).2.board = w1g.board ∧
    (make_move w1g "e2".toList "d1".toList false).2.ps.captured = none :=
  let h := C1_selfcheck_undo w1g "e2".toList "d1".toList (by decide) (by decide)
    rfl (by decide) (by decide) (by decide) (by decide) (by decide)
  ⟨h.1, h.2.2.2.1, h.2.2.2.2.2.2.1⟩
